import Mathlib

/-!
# A verification model of the lust compiler and virtual machine

This file is a shallow embedding of the `lust` bytecode compiler and
stack virtual machine (`src/eval.rs`, with AST and token types from
`src/parse.rs` and `src/lex.rs`).

Modelling conventions:
* Rust `i32` values are modelled as `Int`; the program's observable
  behaviour in every property below stays far inside the `i32` range,
  so wrap-around is not modelled.
* Rust `HashMap<String, _>` is modelled as an association list whose
  `mapInsert` overwrites the first binding in place.  The code only
  uses `insert`, lookup (`[...]` indexing) and `keys().len()`, so the
  iteration order of the hash map is never observable.
* Rust panics (`unwrap` on `None`, out-of-range `Vec` indexing, map
  indexing with a missing key) are modelled as `Except.error` values:
  the whole run aborts, which is exactly the Rust behaviour.
* The `raw : Vec<char>` parameter of the compiler is used by the Rust
  code only to format panic messages (`loc.debug`); it is omitted here.
  Errors that Rust formats with a source location carry that
  `Location`; errors raised by map indexing or `unwrap` carry none,
  because the Rust panic message has no access to the location either.
-/

namespace Lust

/-- Source location, from `lex.rs` (`struct Location`). -/
structure Location where
  col : Int
  line : Int
  index : Nat
deriving Repr, DecidableEq

/-- Token kind, from `lex.rs` (`enum TokenKind`).  The constructor for
`TokenKind::Syntax` is called `syntaxKind` here because of Lean naming
restrictions. -/
inductive TokenKind where
  | identifier
  | syntaxKind
  | keyword
  | number
deriving Repr, DecidableEq

/-- Token, from `lex.rs` (`struct Token`). -/
structure Token where
  value : String
  kind : TokenKind
  loc : Location
deriving Repr, DecidableEq

/-- Literal expressions, from `parse.rs` (`enum Literal`). -/
inductive Literal where
  | identifier (t : Token)
  | number (t : Token)
deriving Repr, DecidableEq

/-- Expressions, from `parse.rs`.  The Rust `FunctionCall` and
`BinaryOperation` structs are inlined into their constructors, keeping
the field names. -/
inductive Expression where
  | functionCall (name : Token) (arguments : List Expression)
  | binaryOperation (operator : Token) (left : Expression) (right : Expression)
  | literal (l : Literal)
deriving Repr

/-- Statements, from `parse.rs` (`enum Statement`).  The Rust `If`,
`FunctionDeclaration`, `Return` and `Local` structs are inlined into
their constructors, keeping the field names. -/
inductive Statement where
  | expressionStmt (e : Expression)
  | ifStmt (test : Expression) (body : List Statement)
  | functionDeclaration (name : Token) (parameters : List Token) (body : List Statement)
  | returnStmt (expression : Expression)
  | localStmt (name : Token) (expression : Expression)
deriving Repr

/-- `pub type Ast = Vec<Statement>` from `parse.rs`. -/
abbrev AST := List Statement

/-! ## The association-list model of `HashMap<String, α>` -/

/-- Lookup in the association-list model of `HashMap`: find the first
binding of the key. -/
def mapLookup {α : Type} : List (String × α) → String → Option α
  | [], _ => none
  | (k', v') :: m, k => if k' = k then some v' else mapLookup m k

/-- Insert into the association-list model of `HashMap`: overwrite the
first binding of the key in place, or append a new binding. -/
def mapInsert {α : Type} : List (String × α) → String → α → List (String × α)
  | [], k, v => [(k, v)]
  | (k', v') :: m, k, v =>
    if k' = k then (k, v) :: m else (k', v') :: mapInsert m k v

/-! ## The instruction set, symbol table and program (`eval.rs`) -/

/-- Bytecode instructions, from `eval.rs` (`enum Instruction`).  The
constructor for `Instruction::Return` is called `ret` here. -/
inductive Instruction where
  | dupPlusSP (i : Int)
  | moveMinusSP (local_offset : Nat) (sp_offset : Int)
  | movePlusSP (i : Nat)
  | store (n : Int)
  | ret
  | jumpIfNotZero (label : String)
  | jump (label : String)
  | call (label : String) (narguments : Nat)
  | add
  | subtract
  | lessThan
deriving Repr, DecidableEq

/-- Symbol-table entry, from `eval.rs` (`struct Symbol`). -/
structure Symbol where
  location : Int
  narguments : Nat
  nlocals : Nat
deriving Repr, DecidableEq

/-- Compiled program, from `eval.rs` (`struct Program`). -/
structure Program where
  syms : List (String × Symbol)
  instructions : List Instruction
deriving Repr, DecidableEq

/-- The compile-time local-name table `HashMap<String, i32>`. -/
abbrev Locals := List (String × Int)

/-- The ways the Rust compiler can panic.
* `unknownOperator`: the `panic!` in `compile_binary_operation`; its
  message is built with `loc.debug`, so it carries the source location.
* `keyNotFound`: `locals[&ident.value]` in `compile_literal` with a
  missing key; the Rust panic message is the `HashMap` indexing panic
  `"no entry found for key"`, which carries no source location (and
  `compile_literal` ignores the `raw` source text entirely).
* `badNumber`: `i.value.parse::<i32>().unwrap()` in `compile_literal`;
  the panic message is a bare `ParseIntError`, with no source location. -/
inductive CompileErr where
  | unknownOperator (loc : Location)
  | keyNotFound
  | badNumber
deriving Repr, DecidableEq

/-- The source location reported by a compile-time failure, if any. -/
def CompileErr.reportedLoc : CompileErr → Option Location
  | .unknownOperator loc => some loc
  | .keyNotFound => none
  | .badNumber => none

/-- Rust's `str::parse::<i32>`: optional sign, at least one decimal
digit, result within the `i32` range. -/
def parse_i32 (s : String) : Option Int :=
  let signAndDigits : Bool × List Char :=
    match s.data with
    | '-' :: rest => (true, rest)
    | '+' :: rest => (false, rest)
    | cs => (false, cs)
  match signAndDigits with
  | (neg, ds) =>
    if ds.isEmpty ∨ ¬ ds.all Char.isDigit then none
    else
      let n : Nat := ds.foldl (fun acc c => acc * 10 + (c.toNat - 48)) 0
      let v : Int := if neg then -(n : Int) else (n : Int)
      if -2147483648 ≤ v ∧ v ≤ 2147483647 then some v else none

/-- Append one instruction to the program (`pgrm.instructions.push`). -/
def emit (pgrm : Program) (instr : Instruction) : Program :=
  { pgrm with instructions := pgrm.instructions ++ [instr] }

/-! ## The compiler (`eval.rs`) -/

/-- `compile_literal` from `eval.rs`: a number pushes a `Store`, an
identifier pushes `DupPlusSP` with the identifier's slot from the
local-name table; a missing identifier is the map-indexing panic. -/
def compile_literal (pgrm : Program) (locals : Locals) : Literal → Except CompileErr Program
  | .number t =>
    match parse_i32 t.value with
    | some n => .ok (emit pgrm (.store n))
    | none => .error .badNumber
  | .identifier t =>
    match mapLookup locals t.value with
    | some i => .ok (emit pgrm (.dupPlusSP i))
    | none => .error .keyNotFound

mutual

/-- `compile_expression` from `eval.rs`.  The bodies of the Rust
helpers `compile_binary_operation` and `compile_function_call` are
inlined into their match arms so that the recursion is structural; the
named wrappers `compile_binary_operation` and `compile_function_call`
below are definitionally equal to these arms. -/
def compile_expression (pgrm : Program) (locals : Locals) :
    Expression → Except CompileErr Program
  | .binaryOperation operator left right => do
    let pgrm ← compile_expression pgrm locals left
    let pgrm ← compile_expression pgrm locals right
    match operator.value with
    | "+" => pure (emit pgrm .add)
    | "-" => pure (emit pgrm .subtract)
    | "<" => pure (emit pgrm .lessThan)
    | _ => throw (.unknownOperator operator.loc)
  | .functionCall name arguments => do
    let len := arguments.length
    let pgrm ← compile_expressions pgrm locals arguments
    pure (emit pgrm (.call name.value len))
  | .literal l => compile_literal pgrm locals l

/-- The `for arg in fc.arguments` loop of `compile_function_call`. -/
def compile_expressions (pgrm : Program) (locals : Locals) :
    List Expression → Except CompileErr Program
  | [] => pure pgrm
  | e :: es => do
    let pgrm ← compile_expression pgrm locals e
    compile_expressions pgrm locals es

end

/-- `compile_binary_operation` from `eval.rs`. -/
def compile_binary_operation (pgrm : Program) (locals : Locals)
    (operator : Token) (left right : Expression) : Except CompileErr Program := do
  let pgrm ← compile_expression pgrm locals left
  let pgrm ← compile_expression pgrm locals right
  match operator.value with
  | "+" => pure (emit pgrm .add)
  | "-" => pure (emit pgrm .subtract)
  | "<" => pure (emit pgrm .lessThan)
  | _ => throw (.unknownOperator operator.loc)

/-- `compile_function_call` from `eval.rs`: arguments are compiled (and
so pushed at run time) left to right, then `Call(name, len)` is emitted. -/
def compile_function_call (pgrm : Program) (locals : Locals)
    (name : Token) (arguments : List Expression) : Except CompileErr Program := do
  let len := arguments.length
  let pgrm ← compile_expressions pgrm locals arguments
  pure (emit pgrm (.call name.value len))

/-- `compile_return` from `eval.rs`. -/
def compile_return (pgrm : Program) (locals : Locals)
    (expression : Expression) : Except CompileErr Program := do
  let pgrm ← compile_expression pgrm locals expression
  pure (emit pgrm .ret)

/-- `compile_local` from `eval.rs`: the slot index is the current size
of the local-name table, the name is inserted before the initialising
expression is compiled, and `MovePlusSP(index)` is emitted after it. -/
def compile_local (pgrm : Program) (locals : Locals)
    (name : Token) (expression : Expression) : Except CompileErr (Program × Locals) := do
  let index := locals.length
  let locals := mapInsert locals name.value (index : Int)
  let pgrm ← compile_expression pgrm locals expression
  pure (emit pgrm (.movePlusSP index), locals)

/-- The `for (i, param) in fd.parameters.iter().enumerate()` loop of
`compile_declaration`: emits `MoveMinusSP(i, narguments - (i + 1))` for
each parameter and seeds the fresh local-name table with `param ↦ i`. -/
def bind_parameters (pgrm : Program) (new_locals : Locals) (narguments : Nat) :
    Nat → List Token → Program × Locals
  | _, [] => (pgrm, new_locals)
  | i, param :: rest =>
    let pgrm := emit pgrm (.moveMinusSP i ((narguments : Int) - ((i : Int) + 1)))
    let new_locals := mapInsert new_locals param.value (i : Int)
    bind_parameters pgrm new_locals narguments (i + 1) rest

mutual

/-- `compile_statement` from `eval.rs`.  The bodies of the Rust helpers
`compile_declaration` and `compile_if` are inlined into their match
arms so that the recursion is structural; the named wrappers
`compile_declaration` and `compile_if` below are definitionally equal
to these arms.  Statements that cannot change the local-name table
return it unchanged (the Rust code passes it by mutable reference but
only `compile_local` writes to it). -/
def compile_statement (pgrm : Program) (locals : Locals) :
    Statement → Except CompileErr (Program × Locals)
  | .functionDeclaration name parameters body => do
    let done_label := "function_done_" ++ toString pgrm.instructions.length
    let pgrm := emit pgrm (.jump done_label)
    let function_index : Int := (pgrm.instructions.length : Int)
    let narguments := parameters.length
    match bind_parameters pgrm [] narguments 0 parameters with
    | (pgrm, new_locals) => do
      let res ← compile_statements pgrm new_locals body
      match res with
      | (pgrm, new_locals) =>
        let pgrm := { pgrm with
          syms := mapInsert pgrm.syms name.value
            ⟨function_index, narguments, new_locals.length⟩ }
        pure ({ pgrm with
          syms := mapInsert pgrm.syms done_label
            ⟨(pgrm.instructions.length : Int), 0, 0⟩ }, locals)
  | .returnStmt expression => do
    let pgrm ← compile_return pgrm locals expression
    pure (pgrm, locals)
  | .ifStmt test body => do
    let pgrm ← compile_expression pgrm locals test
    let done_label := "if_else_" ++ toString pgrm.instructions.length
    let pgrm := emit pgrm (.jumpIfNotZero done_label)
    let res ← compile_statements pgrm locals body
    match res with
    | (pgrm, locals) =>
      pure ({ pgrm with
        syms := mapInsert pgrm.syms done_label
          ⟨(pgrm.instructions.length : Int) - 1, 0, 0⟩ }, locals)
  | .localStmt name expression => compile_local pgrm locals name expression
  | .expressionStmt e => do
    let pgrm ← compile_expression pgrm locals e
    pure (pgrm, locals)

/-- The `for stmt in ast` loop of `compile`. -/
def compile_statements (pgrm : Program) (locals : Locals) :
    List Statement → Except CompileErr (Program × Locals)
  | [] => pure (pgrm, locals)
  | stmt :: rest => do
    let res ← compile_statement pgrm locals stmt
    match res with
    | (pgrm, locals) => compile_statements pgrm locals rest

end

/-- `compile_declaration` from `eval.rs`: a guard `Jump` to
`function_done_<n>`, parameter binding into a fresh local-name table,
the body, then the function symbol (recorded once, after the body, with
`nlocals = new_locals.keys().len()`) and the `function_done` label. -/
def compile_declaration (pgrm : Program) (name : Token)
    (parameters : List Token) (body : List Statement) : Except CompileErr Program := do
  let done_label := "function_done_" ++ toString pgrm.instructions.length
  let pgrm := emit pgrm (.jump done_label)
  let function_index : Int := (pgrm.instructions.length : Int)
  let narguments := parameters.length
  match bind_parameters pgrm [] narguments 0 parameters with
  | (pgrm, new_locals) => do
    let res ← compile_statements pgrm new_locals body
    match res with
    | (pgrm, new_locals) =>
      let pgrm := { pgrm with
        syms := mapInsert pgrm.syms name.value
          ⟨function_index, narguments, new_locals.length⟩ }
      pure { pgrm with
        syms := mapInsert pgrm.syms done_label
          ⟨(pgrm.instructions.length : Int), 0, 0⟩ }

/-- `compile_if` from `eval.rs`: test, `JumpIfNotZero(if_else_<n>)`,
body, then the label is registered at `instructions.len() - 1`. -/
def compile_if (pgrm : Program) (locals : Locals)
    (test : Expression) (body : List Statement) : Except CompileErr (Program × Locals) := do
  let pgrm ← compile_expression pgrm locals test
  let done_label := "if_else_" ++ toString pgrm.instructions.length
  let pgrm := emit pgrm (.jumpIfNotZero done_label)
  let res ← compile_statements pgrm locals body
  match res with
  | (pgrm, locals) =>
    pure ({ pgrm with
      syms := mapInsert pgrm.syms done_label
        ⟨(pgrm.instructions.length : Int) - 1, 0, 0⟩ }, locals)

/-- `compile` from `eval.rs`: compile every top-level statement into an
initially empty program, sharing one top-level local-name table. -/
def compile (ast : AST) : Except CompileErr Program := do
  let res ← compile_statements ⟨[], []⟩ [] ast
  pure res.1

/-! ## The virtual machine (`eval.rs`, `fn eval`) -/

/-- The ways the Rust VM can abort.
* `popEmpty`: `data.pop().unwrap()` on an empty stack.
* `indexOutOfBounds`: `Vec` indexing out of range, including a negative
  `i32` index wrapped to a huge `usize` by an `as usize` cast.
* `symbolNotFound`: `pgrm.syms[label]` with a missing label.
* `negativeFramePointer`: in `Return` with `sp < 0`, the Rust clean-up
  loop `while sp < data.len()` drains the stack and then spins forever;
  the run never makes progress again, which we model as an abort. -/
inductive RuntimeErr where
  | popEmpty
  | indexOutOfBounds
  | symbolNotFound (label : String)
  | negativeFramePointer
deriving Repr, DecidableEq

/-- The VM state: program counter `pc`, frame pointer `sp`, the single
value stack `data` (index 0 is the bottom; pushes and pops happen at
the end of the list), and the lines written by `print` so far (one
entry per executed `print` call, values in the order they were popped
and printed). -/
structure VMState where
  pc : Int
  sp : Int
  data : List Int
  output : List (List Int)
deriving Repr, DecidableEq

/-- `data[i]` for an `i32` index cast with `as usize`: a negative index
wraps to a huge `usize`, so it is out of bounds exactly when `i < 0` or
`i ≥ data.len()`. -/
def vecGet (data : List Int) (i : Int) : Except RuntimeErr Int :=
  if i < 0 then .error .indexOutOfBounds
  else
    match data.get? i.toNat with
    | some v => .ok v
    | none => .error .indexOutOfBounds

/-- `data[i] = v` for a `usize` index that is already known non-negative. -/
def vecSetNat (data : List Int) (i : Nat) (v : Int) : Except RuntimeErr (List Int) :=
  if i < data.length then .ok (data.set i v) else .error .indexOutOfBounds

/-- `data.pop().unwrap()`. -/
def vecPop (data : List Int) : Except RuntimeErr (Int × List Int) :=
  match data.getLast? with
  | some v => .ok (v, data.dropLast)
  | none => .error .popEmpty

/-- The `print` loop: pop `n` values, in order from the top of the
stack down.  Returns the popped values in pop (= print) order and the
remaining stack. -/
def popN (data : List Int) : Nat → Except RuntimeErr (List Int × List Int)
  | 0 => .ok ([], data)
  | n + 1 => do
    let (v, data) ← vecPop data
    let (vs, data) ← popN data n
    .ok (v :: vs, data)

/-- The body of the `match &pgrm.instructions[pc as usize]` in
`fn eval`: execute one already-fetched instruction.  Every Rust panic
becomes an `Except.error`. -/
def exec (pgrm : Program) (s : VMState) : Instruction → Except RuntimeErr VMState
  | instr =>
      match instr with
      | .dupPlusSP i => do
        let v ← vecGet s.data (s.sp + i)
        .ok { s with data := s.data ++ [v], pc := s.pc + 1 }
      | .moveMinusSP local_offset sp_offset => do
        let v ← vecGet s.data (s.sp - (sp_offset + 4))
        if s.sp < 0 then .error .indexOutOfBounds
        else do
          let data ← vecSetNat s.data (s.sp.toNat + local_offset) v
          .ok { s with data := data, pc := s.pc + 1 }
      | .movePlusSP i => do
        let (val, data) ← vecPop s.data
        if s.sp < 0 then .error .indexOutOfBounds
        else
          let index := s.sp.toNat + i
          let data :=
            if data.length ≤ index then
              data ++ List.replicate (index + 1 - data.length) 0
            else data
          .ok { s with data := data.set index val, pc := s.pc + 1 }
      | .jumpIfNotZero label => do
        let (top, data) ← vecPop s.data
        if top = 0 then
          match mapLookup pgrm.syms label with
          | some sym => .ok { s with data := data, pc := sym.location + 1 }
          | none => .error (.symbolNotFound label)
        else .ok { s with data := data, pc := s.pc + 1 }
      | .jump label =>
        match mapLookup pgrm.syms label with
        | some sym => .ok { s with pc := sym.location }
        | none => .error (.symbolNotFound label)
      | .ret => do
        let (retv, data) ← vecPop s.data
        if s.sp < 0 then .error .negativeFramePointer
        else do
          let data := data.take s.sp.toNat
          let (narguments, data) ← vecPop data
          let (pcSaved, data) ← vecPop data
          let (spSaved, data) ← vecPop data
          let data := data.take (data.length - narguments.toNat)
          .ok { s with data := data ++ [retv], pc := pcSaved, sp := spSaved }
      | .call label narguments =>
        if label = "print" then do
          let (vals, data) ← popN s.data narguments
          .ok { s with data := data, output := s.output ++ [vals], pc := s.pc + 1 }
        else
          match mapLookup pgrm.syms label with
          | none => .error (.symbolNotFound label)
          | some sym =>
            let data := s.data ++ [s.sp, s.pc + 1, (sym.narguments : Int)]
            .ok { s with data := data ++ List.replicate sym.nlocals 0,
                         pc := sym.location, sp := (data.length : Int) }
      | .add => do
        let (right, data) ← vecPop s.data
        let (left, data) ← vecPop data
        .ok { s with data := data ++ [left + right], pc := s.pc + 1 }
      | .subtract => do
        let (right, data) ← vecPop s.data
        let (left, data) ← vecPop data
        .ok { s with data := data ++ [left - right], pc := s.pc + 1 }
      | .lessThan => do
        let (right, data) ← vecPop s.data
        let (left, data) ← vecPop data
        .ok { s with data := data ++ [if left < right then 1 else 0], pc := s.pc + 1 }
      | .store n => .ok { s with data := s.data ++ [n], pc := s.pc + 1 }

/-- One iteration of the `while pc < pgrm.instructions.len()` loop of
`fn eval`: fetch the instruction at `pc` (a negative `pc` is the
`as usize` wrap-around panic) and execute it. -/
def step (pgrm : Program) (s : VMState) : Except RuntimeErr VMState :=
  if s.pc < 0 then .error .indexOutOfBounds
  else
    match pgrm.instructions.get? s.pc.toNat with
    | none => .error .indexOutOfBounds
    | some instr => exec pgrm s instr

/-- Result of running the VM loop with a step budget. -/
inductive RunResult where
  | halted (s : VMState)
  | aborted (e : RuntimeErr)
  | outOfFuel (s : VMState)
deriving Repr, DecidableEq

/-- The `while pc < pgrm.instructions.len()` loop of `fn eval`, with a
fuel bound to make it total: the loop exits normally when `pc` runs
past the end of the instruction sequence. -/
def run (pgrm : Program) : Nat → VMState → RunResult
  | 0, s => .outOfFuel s
  | fuel + 1, s =>
    if s.pc < (pgrm.instructions.length : Int) then
      match step pgrm s with
      | .ok s' => run pgrm fuel s'
      | .error e => .aborted e
    else .halted s

/-- Execute exactly `n` iterations of the VM loop (whether or not the
loop condition still holds), to observe intermediate states. -/
def steps (pgrm : Program) : Nat → VMState → Except RuntimeErr VMState
  | 0, s => .ok s
  | n + 1, s => do
    let s' ← step pgrm s
    steps pgrm n s'

/-- The initial VM state of `fn eval`: `pc = 0`, `sp = 0`, empty stack. -/
def initial_state : VMState := ⟨0, 0, [], []⟩

/-! ## Spec-side helper definitions (used only to state the claims) -/

mutual

/-- The local names declared by one statement in the current scope:
`local` declarations, including those inside `if` bodies (which share
the scope), but not those inside nested function declarations (which
get a fresh local-name table). -/
def stmt_locals : Statement → List String
  | .localStmt name _ => [name.value]
  | .ifStmt _ body => stmts_locals body
  | _ => []

/-- The local names declared by a statement sequence in its own scope,
in compile order. -/
def stmts_locals : List Statement → List String
  | [] => []
  | s :: ss => stmt_locals s ++ stmts_locals ss

end

mutual

/-- The function names declared by one statement, at any nesting depth
(all function declarations write into the one global symbol table). -/
def stmt_funs : Statement → List String
  | .functionDeclaration name _ body => name.value :: stmts_funs body
  | .ifStmt _ body => stmts_funs body
  | _ => []

/-- The function names declared by a statement sequence, at any depth. -/
def stmts_funs : List Statement → List String
  | [] => []
  | s :: ss => stmt_funs s ++ stmts_funs ss

end

/-- A compiler-generated control-flow label name: `function_done_<n>`
or `if_else_<n>`. -/
def syntheticLabel (s : String) : Prop :=
  (∃ t, s = "function_done_" ++ t) ∨ (∃ t, s = "if_else_" ++ t)

/-- Well-formedness of a local-name table: distinct names, distinct
slot indices, and every slot index within `[0, size)`. -/
def SlotsOK (m : Locals) : Prop :=
  (m.map Prod.fst).Nodup ∧ (m.map Prod.snd).Nodup ∧
    ∀ p ∈ m, 0 ≤ p.2 ∧ p.2 < (m.length : Int)

mutual

/-- `true` when the expression contains an identifier reference that is
not in `scope`. -/
def has_undeclared_expr (scope : List String) : Expression → Bool
  | .literal (.identifier t) => !(decide (t.value ∈ scope))
  | .literal (.number _) => false
  | .binaryOperation _ left right =>
    has_undeclared_expr scope left || has_undeclared_expr scope right
  | .functionCall _ arguments => has_undeclared_list scope arguments

/-- `true` when some expression in the list contains an identifier
reference that is not in `scope`. -/
def has_undeclared_list (scope : List String) : List Expression → Bool
  | [] => false
  | e :: es => has_undeclared_expr scope e || has_undeclared_list scope es

end

mutual

/-- `true` when the statement contains an identifier reference that was
never declared as a local or parameter in its enclosing scope.  `scope`
is the set of every name declared anywhere in the current scope; a
nested function body is checked against its own parameters and locals. -/
def has_undeclared_stmt (scope : List String) : Statement → Bool
  | .expressionStmt e => has_undeclared_expr scope e
  | .returnStmt e => has_undeclared_expr scope e
  | .localStmt _ e => has_undeclared_expr scope e
  | .ifStmt test body =>
    has_undeclared_expr scope test || has_undeclared_stmts scope body
  | .functionDeclaration _ parameters body =>
    has_undeclared_stmts (parameters.map Token.value ++ stmts_locals body) body

/-- `true` when some statement in the sequence contains an identifier
reference undeclared in its enclosing scope. -/
def has_undeclared_stmts (scope : List String) : List Statement → Bool
  | [] => false
  | s :: ss => has_undeclared_stmt scope s || has_undeclared_stmts scope ss

end

/-- An `Except` value that models a Rust panic. -/
def isErr {ε α : Type} : Except ε α → Bool
  | .error _ => true
  | .ok _ => false

instance {ε α : Type} [DecidableEq ε] [DecidableEq α] : DecidableEq (Except ε α) := fun x y =>
  match x, y with
  | .error a, .error b => decidable_of_iff (a = b) (by simp)
  | .error _, .ok _ => .isFalse (by simp)
  | .ok _, .error _ => .isFalse (by simp)
  | .ok a, .ok b => decidable_of_iff (a = b) (by simp)

/-! ## Concrete example programs -/

/-- A fixed dummy location for hand-built AST tokens. -/
def loc0 : Location := ⟨0, 0, 0⟩

/-- An identifier token. -/
def tokIdent (s : String) : Token := ⟨s, .identifier, loc0⟩

/-- A number token. -/
def tokNum (s : String) : Token := ⟨s, .number, loc0⟩

/-- An operator token (lexed with `TokenKind::Syntax`). -/
def tokOp (s : String) : Token := ⟨s, .syntaxKind, loc0⟩

/-- A numeric-literal expression. -/
def num (s : String) : Expression := .literal (.number (tokNum s))

/-- An identifier-reference expression. -/
def ident (s : String) : Expression := .literal (.identifier (tokIdent s))

/-- The AST of `function id(x) return x; end id(42);`. -/
def ast_id : AST :=
  [.functionDeclaration (tokIdent "id") [tokIdent "x"] [.returnStmt (ident "x")],
   .expressionStmt (.functionCall (tokIdent "id") [num "42"])]

/-- The compiled program of `ast_id`. -/
def P_id : Program :=
  ⟨[("id", ⟨1, 1, 1⟩), ("function_done_0", ⟨4, 0, 0⟩)],
   [.jump "function_done_0", .moveMinusSP 0 0, .dupPlusSP 0, .ret,
    .store 42, .call "id" 1]⟩


/-- The AST of `if 0 < 0 then return 1; end return 2;` (§8 of the spec). -/
def ast_if_top : AST :=
  [.ifStmt (.binaryOperation (tokOp "<") (num "0") (num "0"))
     [.returnStmt (num "1")],
   .returnStmt (num "2")]

/-- The compiled program of `ast_if_top`. -/
def P_if_top : Program :=
  ⟨[("if_else_3", ⟨5, 0, 0⟩)],
   [.store 0, .store 0, .lessThan, .jumpIfNotZero "if_else_3",
    .store 1, .ret, .store 2, .ret]⟩


/-- The AST of `function f() if 0 < 0 then return 1; end return 2; end f();`. -/
def ast_if_fn : AST :=
  [.functionDeclaration (tokIdent "f") []
     [.ifStmt (.binaryOperation (tokOp "<") (num "0") (num "0"))
        [.returnStmt (num "1")],
      .returnStmt (num "2")],
   .expressionStmt (.functionCall (tokIdent "f") [])]

/-- The compiled program of `ast_if_fn`. -/
def P_if_fn : Program :=
  ⟨[("if_else_4", ⟨6, 0, 0⟩), ("f", ⟨1, 0, 0⟩), ("function_done_0", ⟨9, 0, 0⟩)],
   [.jump "function_done_0", .store 0, .store 0, .lessThan,
    .jumpIfNotZero "if_else_4", .store 1, .ret, .store 2, .ret,
    .call "f" 0]⟩


/-- The AST of `print(1, 2, 3);`. -/
def ast_print : AST :=
  [.expressionStmt (.functionCall (tokIdent "print") [num "1", num "2", num "3"])]

/-- The compiled program of `ast_print`. -/
def P_print : Program :=
  ⟨[], [.store 1, .store 2, .store 3, .call "print" 3]⟩


/-- The AST of `local x = 1; local x = 2; local y = 3;`: the second
`local x` redeclares `x`. -/
def ast_redecl : AST :=
  [.localStmt (tokIdent "x") (num "1"),
   .localStmt (tokIdent "x") (num "2"),
   .localStmt (tokIdent "y") (num "3")]


/-- The AST of `function f(x, x) return x; end f(1, 2);`: duplicate
parameter names. -/
def ast_dup_param : AST :=
  [.functionDeclaration (tokIdent "f") [tokIdent "x", tokIdent "x"]
     [.returnStmt (ident "x")],
   .expressionStmt (.functionCall (tokIdent "f") [num "1", num "2"])]

/-- The compiled program of `ast_dup_param`. -/
def P_dup_param : Program :=
  ⟨[("f", ⟨1, 2, 1⟩), ("function_done_0", ⟨5, 0, 0⟩)],
   [.jump "function_done_0", .moveMinusSP 0 1, .moveMinusSP 1 0,
    .dupPlusSP 1, .ret, .store 1, .store 2, .call "f" 2]⟩


/-- The AST of `x;` where `x` was never declared. -/
def ast_undeclared : AST := [.expressionStmt (ident "x")]


/-- The program produced by compiling just the declaration
`function id(x) return x; end` into an empty program. -/
def P_id_decl : Program :=
  ⟨[("id", ⟨1, 1, 1⟩), ("function_done_0", ⟨4, 0, 0⟩)],
   [.jump "function_done_0", .moveMinusSP 0 0, .dupPlusSP 0, .ret]⟩


/-- The AST of `function g(x) local y = 2; return x; end g(5);`. -/
def ast_g : AST :=
  [.functionDeclaration (tokIdent "g") [tokIdent "x"]
     [.localStmt (tokIdent "y") (num "2"), .returnStmt (ident "x")],
   .expressionStmt (.functionCall (tokIdent "g") [num "5"])]

/-- The compiled program of `ast_g`. -/
def P_g : Program :=
  ⟨[("g", ⟨1, 1, 2⟩), ("function_done_0", ⟨6, 0, 0⟩)],
   [.jump "function_done_0", .moveMinusSP 0 0, .store 2, .movePlusSP 1,
    .dupPlusSP 0, .ret, .store 5, .call "g" 1]⟩

/-- The program produced by compiling just the declaration of `g`. -/
def P_g_decl : Program :=
  ⟨[("g", ⟨1, 1, 2⟩), ("function_done_0", ⟨6, 0, 0⟩)],
   [.jump "function_done_0", .moveMinusSP 0 0, .store 2, .movePlusSP 1,
    .dupPlusSP 0, .ret]⟩


/-! ## Dispatch equations for the inlined compiler helpers -/

/-- `compile_expression` dispatches a binary operation to
`compile_binary_operation`, exactly as in `eval.rs`. -/
theorem compile_expression_binaryOperation (pgrm : Program) (locals : Locals)
    (operator : Token) (left right : Expression) :
    compile_expression pgrm locals (.binaryOperation operator left right) =
      compile_binary_operation pgrm locals operator left right := rfl

/-- `compile_expression` dispatches a function call to
`compile_function_call`, exactly as in `eval.rs`. -/
theorem compile_expression_functionCall (pgrm : Program) (locals : Locals)
    (name : Token) (arguments : List Expression) :
    compile_expression pgrm locals (.functionCall name arguments) =
      compile_function_call pgrm locals name arguments := rfl

/-- `compile_statement` dispatches a function declaration to
`compile_declaration`, exactly as in `eval.rs`. -/
theorem compile_statement_declaration (pgrm : Program) (locals : Locals)
    (name : Token) (parameters : List Token) (body : List Statement) :
    compile_statement pgrm locals (.functionDeclaration name parameters body) =
      (do
        let pgrm ← compile_declaration pgrm name parameters body
        pure (pgrm, locals)) := by
  unfold compile_statement compile_declaration
  simp only [bind, Except.bind]
  cases compile_statements
      (bind_parameters (emit pgrm (Instruction.jump ("function_done_" ++ toString pgrm.instructions.length)))
        [] parameters.length 0 parameters).1
      (bind_parameters (emit pgrm (Instruction.jump ("function_done_" ++ toString pgrm.instructions.length)))
        [] parameters.length 0 parameters).2
      body with
  | error e => rfl
  | ok res => rfl

/-- `compile_statement` dispatches an `if` statement to `compile_if`,
exactly as in `eval.rs`. -/
theorem compile_statement_if (pgrm : Program) (locals : Locals)
    (test : Expression) (body : List Statement) :
    compile_statement pgrm locals (.ifStmt test body) =
      compile_if pgrm locals test body := rfl

/-! ## Association-list map lemmas -/

theorem mapLookup_mapInsert_self {α : Type} (m : List (String × α)) (k : String) (v : α) :
    mapLookup (mapInsert m k v) k = some v := by
  induction m with
  | nil => simp [mapInsert, mapLookup]
  | cons p m ih =>
    by_cases h : p.1 = k
    · simp [mapInsert, mapLookup, h]
    · simpa [mapInsert, mapLookup, h] using ih

theorem mapLookup_mapInsert_ne {α : Type} (m : List (String × α)) (k k' : String) (v : α)
    (h : k ≠ k') : mapLookup (mapInsert m k v) k' = mapLookup m k' := by
  induction m with
  | nil => simp [mapInsert, mapLookup, h]
  | cons p m ih =>
    obtain ⟨a, b⟩ := p
    by_cases hp : a = k
    · subst hp
      simp [mapInsert, mapLookup, h]
    · simp [mapInsert, mapLookup, hp, ih]

theorem mapInsert_of_lookup_none {α : Type} (m : List (String × α)) (k : String) (v : α)
    (h : mapLookup m k = none) : mapInsert m k v = m ++ [(k, v)] := by
  induction m with
  | nil => simp [mapInsert]
  | cons p m ih =>
    obtain ⟨a, b⟩ := p
    by_cases hp : a = k
    · simp [mapLookup, hp] at h
    · simp only [mapLookup, hp, if_false] at h
      simp [mapInsert, hp, ih h]

theorem mapLookup_eq_none_iff {α : Type} (m : List (String × α)) (k : String) :
    mapLookup m k = none ↔ k ∉ m.map Prod.fst := by
  induction m with
  | nil => simp [mapLookup]
  | cons p m ih =>
    obtain ⟨a, b⟩ := p
    by_cases hp : a = k
    · simp [mapLookup, hp]
    · simp [mapLookup, hp, ih, Ne.symm hp]

theorem mapLookup_isSome_iff {α : Type} (m : List (String × α)) (k : String) :
    (mapLookup m k).isSome = true ↔ k ∈ m.map Prod.fst := by
  cases h : mapLookup m k with
  | none =>
    simp only [Option.isSome_none, Bool.false_eq_true, false_iff]
    exact (mapLookup_eq_none_iff m k).mp h
  | some v =>
    simp only [Option.isSome_some, true_iff]
    by_contra hmem
    have := (mapLookup_eq_none_iff m k).mpr hmem
    rw [h] at this
    exact absurd this (by simp)

theorem length_mapInsert_of_none {α : Type} (m : List (String × α)) (k : String) (v : α)
    (h : mapLookup m k = none) : (mapInsert m k v).length = m.length + 1 := by
  rw [mapInsert_of_lookup_none m k v h]
  simp

theorem length_mapInsert_of_some {α : Type} (m : List (String × α)) (k : String) (v w : α)
    (h : mapLookup m k = some w) : (mapInsert m k v).length = m.length := by
  induction m with
  | nil => simp [mapLookup] at h
  | cons p m ih =>
    obtain ⟨a, b⟩ := p
    by_cases hp : a = k
    · simp [mapInsert, hp]
    · simp only [mapLookup, hp, if_false] at h
      simp [mapInsert, hp, ih h]

theorem keys_mapInsert {α : Type} (m : List (String × α)) (k k' : String) (v : α) :
    k' ∈ (mapInsert m k v).map Prod.fst ↔ k' = k ∨ k' ∈ m.map Prod.fst := by
  induction m with
  | nil => simp [mapInsert]
  | cons p m ih =>
    obtain ⟨a, b⟩ := p
    by_cases hp : a = k
    · subst hp
      have he : mapInsert ((a, b) :: m) a v = (a, v) :: m := by simp [mapInsert]
      rw [he]
      simp
    · simp only [mapInsert, hp, if_false, List.map_cons, List.mem_cons, ih]
      tauto

theorem nodup_keys_mapInsert {α : Type} (m : List (String × α)) (k : String) (v : α)
    (h : (m.map Prod.fst).Nodup) : ((mapInsert m k v).map Prod.fst).Nodup := by
  induction m with
  | nil => simp [mapInsert]
  | cons p m ih =>
    obtain ⟨a, b⟩ := p
    simp only [List.map_cons, List.nodup_cons] at h
    by_cases hp : a = k
    · subst hp
      have he : mapInsert ((a, b) :: m) a v = (a, v) :: m := by simp [mapInsert]
      rw [he]
      simp only [List.map_cons, List.nodup_cons]
      exact h
    · simp only [mapInsert, hp, if_false, List.map_cons, List.nodup_cons]
      refine ⟨?_, ih h.2⟩
      intro hmem
      rcases (keys_mapInsert m k a v).mp hmem with h1 | h1
      · exact hp h1
      · exact h.1 h1

/-! ## Value-stack lemmas -/

theorem vecPop_concat (l : List Int) (x : Int) : vecPop (l ++ [x]) = .ok (x, l) := by
  simp [vecPop]

theorem popN_concat (vals rest : List Int) :
    popN (rest ++ vals) vals.length = .ok (vals.reverse, rest) := by
  induction vals using List.reverseRecOn generalizing rest with
  | nil => simp [popN]
  | append_singleton vs v ih =>
    have h1 : rest ++ (vs ++ [v]) = (rest ++ vs) ++ [v] := by simp
    rw [h1]
    simp only [List.length_append, List.length_singleton]
    rw [show vs.length + 1 = vs.length + 1 from rfl]
    simp only [popN, vecPop_concat, bind, Except.bind]
    rw [ih rest]
    simp

/-! ## Single-step execution lemmas -/

theorem step_eq_exec (pgrm : Program) (s : VMState) (instr : Instruction)
    (hpc : 0 ≤ s.pc)
    (hin : pgrm.instructions.get? s.pc.toNat = some instr) :
    step pgrm s = exec pgrm s instr := by
  rw [step, if_neg (by omega), hin]

/-- Executing `Call(label, k)` for a non-`print` label with a resolved
symbol: push the caller's `sp`, the return address `pc + 1` and the
callee's declared argument count, set `sp` to the new stack length,
jump to the callee, and zero-fill `nlocals` slots. -/
theorem exec_call_user (pgrm : Program) (s : VMState) (label : String) (k : Nat)
    (sym : Symbol) (hnp : label ≠ "print")
    (hsym : mapLookup pgrm.syms label = some sym) :
    exec pgrm s (.call label k) =
      .ok ⟨sym.location, ((s.data.length + 3 : Nat) : Int),
           s.data ++ [s.sp, s.pc + 1, (sym.narguments : Int)] ++ List.replicate sym.nlocals 0,
           s.output⟩ := by
  simp [exec, hnp, hsym]

/-- Executing `Call("print", k)` with `k` values available: pop them,
append one output line holding them in pop order, and fall through.
The symbol table plays no part: the `print` check comes first. -/
theorem exec_call_print (pgrm : Program) (s : VMState) (k : Nat)
    (rest vals : List Int) (hdata : s.data = rest ++ vals) (hlen : vals.length = k) :
    exec pgrm s (.call "print" k) =
      .ok ⟨s.pc + 1, s.sp, rest, s.output ++ [vals.reverse]⟩ := by
  subst hlen
  simp [exec, hdata, popN_concat, bind, Except.bind]

/-- Executing `JumpIfNotZero(label)`: pop one value; if it is zero the
new `pc` is the label's resolved location **plus one** (the code sets
`pc` to the location and then unconditionally increments it); otherwise
fall through to `pc + 1`. -/
theorem exec_jumpIfNotZero (pgrm : Program) (s : VMState) (label : String)
    (sym : Symbol) (d : List Int) (top : Int)
    (hdata : s.data = d ++ [top])
    (hsym : mapLookup pgrm.syms label = some sym) :
    exec pgrm s (.jumpIfNotZero label) =
      .ok ⟨(if top = 0 then sym.location + 1 else s.pc + 1), s.sp, d, s.output⟩ := by
  by_cases h : top = 0
  · simp [exec, hdata, vecPop_concat, bind, Except.bind, h, hsym]
  · simp [exec, hdata, vecPop_concat, bind, Except.bind, h]

/-- Executing `Return` on a well-formed frame: with the stack laid out
as `base ++ args ++ [savedFp, savedPc, n] ++ frame ++ [retv]`, the
saved argument count equal to the number of argument values that were
pushed, and `sp` pointing at the frame base, the VM discards the frame
and the arguments, restores `pc` and `sp` from the saved words, and
pushes the return value: the stack becomes `base ++ [retv]`. -/
theorem exec_ret (pgrm : Program) (s : VMState)
    (base args frame : List Int) (savedFp savedPc retv : Int) (n : Nat)
    (hdata : s.data = base ++ args ++ [savedFp, savedPc, (n : Int)] ++ frame ++ [retv])
    (hargs : args.length = n)
    (hsp : s.sp = ((base.length + n + 3 : Nat) : Int)) :
    exec pgrm s .ret = .ok ⟨savedPc, savedFp, base ++ [retv], s.output⟩ := by
  have h1 : s.data = (base ++ args ++ [savedFp, savedPc, (n : Int)] ++ frame) ++ [retv] := by
    simpa [List.append_assoc] using hdata
  have hpop1 : vecPop s.data =
      .ok (retv, base ++ args ++ [savedFp, savedPc, (n : Int)] ++ frame) := by
    rw [h1, vecPop_concat]
  have hlen3 : (base ++ args ++ [savedFp, savedPc, (n : Int)]).length = base.length + n + 3 := by
    simp only [List.length_append, List.length_cons, List.length_nil, hargs]
  have htake : (base ++ args ++ [savedFp, savedPc, (n : Int)] ++ frame).take (base.length + n + 3) =
      base ++ args ++ [savedFp, savedPc, (n : Int)] := by
    rw [show base ++ args ++ [savedFp, savedPc, (n : Int)] ++ frame =
        (base ++ args ++ [savedFp, savedPc, (n : Int)]) ++ frame by simp [List.append_assoc]]
    rw [← hlen3, List.take_left]
  have hpop2 : vecPop (base ++ args ++ [savedFp, savedPc, (n : Int)]) =
      .ok ((n : Int), base ++ args ++ [savedFp, savedPc]) := by
    rw [show base ++ args ++ [savedFp, savedPc, (n : Int)] =
        (base ++ args ++ [savedFp, savedPc]) ++ [(n : Int)] by simp]
    exact vecPop_concat _ _
  have hpop3 : vecPop (base ++ args ++ [savedFp, savedPc]) =
      .ok (savedPc, base ++ args ++ [savedFp]) := by
    rw [show base ++ args ++ [savedFp, savedPc] = (base ++ args ++ [savedFp]) ++ [savedPc] by simp]
    exact vecPop_concat _ _
  have hpop4 : vecPop (base ++ args ++ [savedFp]) = .ok (savedFp, base ++ args) := by
    rw [show base ++ args ++ [savedFp] = (base ++ args) ++ [savedFp] by simp]
    exact vecPop_concat _ _
  have htake2 : (base ++ args).take ((base ++ args).length - ((n : Int)).toNat) = base := by
    simp only [Int.toNat_natCast, List.length_append, hargs]
    rw [show base.length + n - n = base.length by omega, List.take_left]
  have hspnn : ¬ s.sp < 0 := by rw [hsp]; omega
  have hspt : s.sp.toNat = base.length + n + 3 := by rw [hsp]; omega
  simp only [exec, hpop1, bind, Except.bind, hspnn, if_false, hspt, htake, hpop2, hpop3,
    hpop4, htake2]

/-! ## Compiler invariants: expressions never touch the symbol table -/

theorem compile_literal_syms (pgrm : Program) (locals : Locals) (lit : Literal) (p' : Program)
    (h : compile_literal pgrm locals lit = .ok p') : p'.syms = pgrm.syms := by
  cases lit with
  | number t =>
    simp only [compile_literal] at h
    split at h
    · simp only [Except.ok.injEq] at h
      subst h
      rfl
    · exact absurd h (by simp)
  | identifier t =>
    simp only [compile_literal] at h
    split at h
    · simp only [Except.ok.injEq] at h
      subst h
      rfl
    · exact absurd h (by simp)

mutual

theorem compile_expression_syms (pgrm : Program) (locals : Locals) (e : Expression) (p' : Program)
    (h : compile_expression pgrm locals e = .ok p') : p'.syms = pgrm.syms := by
  cases e with
  | binaryOperation operator left right =>
    simp only [compile_expression, bind, Except.bind] at h
    split at h
    · exact absurd h (by simp)
    · rename_i p1 h1
      split at h
      · exact absurd h (by simp)
      · rename_i p2 h2
        have e1 := compile_expression_syms pgrm locals left p1 h1
        have e2 := compile_expression_syms p1 locals right p2 h2
        split at h <;>
          first
          | (simp only [pure, Except.pure, Except.ok.injEq] at h
             subst h
             simp [emit, e1, e2])
          | exact absurd h (by simp)
  | functionCall name arguments =>
    simp only [compile_expression, bind, Except.bind] at h
    split at h
    · exact absurd h (by simp)
    · rename_i p1 h1
      have e1 := compile_expressions_syms pgrm locals arguments p1 h1
      simp only [pure, Except.pure, Except.ok.injEq] at h
      subst h
      simp [emit, e1]
  | literal l =>
    simp only [compile_expression] at h
    exact compile_literal_syms pgrm locals l p' h

theorem compile_expressions_syms (pgrm : Program) (locals : Locals) (es : List Expression)
    (p' : Program) (h : compile_expressions pgrm locals es = .ok p') : p'.syms = pgrm.syms := by
  cases es with
  | nil =>
    simp only [compile_expressions, pure, Except.pure, Except.ok.injEq] at h
    subst h
    rfl
  | cons e es =>
    simp only [compile_expressions, bind, Except.bind] at h
    split at h
    · exact absurd h (by simp)
    · rename_i p1 h1
      have e1 := compile_expression_syms pgrm locals e p1 h1
      have e2 := compile_expressions_syms p1 locals es p' h
      rw [e2, e1]

end

theorem compile_return_syms (pgrm : Program) (locals : Locals) (e : Expression) (p' : Program)
    (h : compile_return pgrm locals e = .ok p') : p'.syms = pgrm.syms := by
  simp only [compile_return, bind, Except.bind] at h
  split at h
  · exact absurd h (by simp)
  · rename_i p1 h1
    simp only [pure, Except.pure, Except.ok.injEq] at h
    subst h
    simpa [emit] using compile_expression_syms pgrm locals e p1 h1

theorem compile_local_syms (pgrm : Program) (locals : Locals) (name : Token) (e : Expression)
    (p' : Program) (l' : Locals)
    (h : compile_local pgrm locals name e = .ok (p', l')) : p'.syms = pgrm.syms := by
  simp only [compile_local, bind, Except.bind] at h
  split at h
  · exact absurd h (by simp)
  · rename_i p1 h1
    simp only [pure, Except.pure, Except.ok.injEq, Prod.mk.injEq] at h
    obtain ⟨h2, -⟩ := h
    subst h2
    simpa [emit] using
      compile_expression_syms pgrm (mapInsert locals name.value (locals.length : Int)) e p1 h1

theorem bind_parameters_syms (parameters : List Token) (pgrm : Program) (new_locals : Locals)
    (narguments i : Nat) :
    (bind_parameters pgrm new_locals narguments i parameters).1.syms = pgrm.syms := by
  induction parameters generalizing pgrm new_locals i with
  | nil => rfl
  | cons param rest ih => simpa [bind_parameters, emit] using ih _ _ _

/-! ## Compiler invariants: evolution of the local-name table -/

/-- Lookup success after an insert: the inserted key, or an already
present key. -/
theorem mapLookup_mapInsert_isSome {α : Type} (m : List (String × α)) (k k' : String) (v : α) :
    (mapLookup (mapInsert m k v) k').isSome = true ↔
      k' = k ∨ (mapLookup m k').isSome = true := by
  by_cases h : k' = k
  · subst h
    simp [mapLookup_mapInsert_self]
  · rw [mapLookup_mapInsert_ne m k k' v (fun hh => h hh.symm)]
    simp [h]

theorem compile_local_locals (pgrm : Program) (locals : Locals) (name : Token) (e : Expression)
    (p' : Program) (l' : Locals)
    (h : compile_local pgrm locals name e = .ok (p', l')) :
    l' = mapInsert locals name.value (locals.length : Int) := by
  simp only [compile_local, bind, Except.bind] at h
  split at h
  · exact absurd h (by simp)
  · simp only [pure, Except.pure, Except.ok.injEq, Prod.mk.injEq] at h
    exact h.2.symm

mutual

theorem compile_statement_locals_keys (pgrm : Program) (locals : Locals) (st : Statement)
    (p' : Program) (l' : Locals)
    (h : compile_statement pgrm locals st = .ok (p', l')) :
    ∀ k, (mapLookup l' k).isSome = true ↔
      ((mapLookup locals k).isSome = true ∨ k ∈ stmt_locals st) := by
  cases st with
  | expressionStmt e =>
    simp only [compile_statement, bind, Except.bind] at h
    split at h
    · exact absurd h (by simp)
    · simp only [pure, Except.pure, Except.ok.injEq, Prod.mk.injEq] at h
      obtain ⟨-, h2⟩ := h
      subst h2
      simp [stmt_locals]
  | returnStmt e =>
    simp only [compile_statement, bind, Except.bind] at h
    split at h
    · exact absurd h (by simp)
    · simp only [pure, Except.pure, Except.ok.injEq, Prod.mk.injEq] at h
      obtain ⟨-, h2⟩ := h
      subst h2
      simp [stmt_locals]
  | functionDeclaration name parameters body =>
    rw [compile_statement_declaration] at h
    simp only [bind, Except.bind] at h
    split at h
    · exact absurd h (by simp)
    · simp only [pure, Except.pure, Except.ok.injEq, Prod.mk.injEq] at h
      obtain ⟨-, h2⟩ := h
      subst h2
      simp [stmt_locals]
  | localStmt name e =>
    have hl := compile_local_locals pgrm locals name e p' l' (by
      simpa only [compile_statement] using h)
    subst hl
    intro k
    rw [mapLookup_mapInsert_isSome]
    simp [stmt_locals]
    tauto
  | ifStmt test body =>
    simp only [compile_statement, bind, Except.bind] at h
    split at h
    · exact absurd h (by simp)
    · rename_i p1 h1
      split at h
      · exact absurd h (by simp)
      · rename_i res h2
        simp only [pure, Except.pure, Except.ok.injEq, Prod.mk.injEq] at h
        obtain ⟨-, h3⟩ := h
        have hk := compile_statements_locals_keys _ _ body res.1 res.2 (by
          rw [← h2])
        subst h3
        intro k
        rw [hk k]
        simp [stmt_locals]

theorem compile_statements_locals_keys (pgrm : Program) (locals : Locals)
    (sts : List Statement) (p' : Program) (l' : Locals)
    (h : compile_statements pgrm locals sts = .ok (p', l')) :
    ∀ k, (mapLookup l' k).isSome = true ↔
      ((mapLookup locals k).isSome = true ∨ k ∈ stmts_locals sts) := by
  cases sts with
  | nil =>
    simp only [compile_statements, pure, Except.pure, Except.ok.injEq, Prod.mk.injEq] at h
    obtain ⟨-, h2⟩ := h
    subst h2
    simp [stmts_locals]
  | cons s ss =>
    simp only [compile_statements, bind, Except.bind] at h
    split at h
    · exact absurd h (by simp)
    · rename_i res h1
      have hk1 := compile_statement_locals_keys pgrm locals s res.1 res.2 (by rw [← h1])
      have hk2 := compile_statements_locals_keys res.1 res.2 ss p' l' h
      intro k
      rw [hk2 k, hk1 k]
      simp [stmts_locals]
      tauto

end

theorem bind_parameters_locals_keys (parameters : List Token) (pgrm : Program)
    (new_locals : Locals) (narguments i : Nat) :
    ∀ k, (mapLookup (bind_parameters pgrm new_locals narguments i parameters).2 k).isSome = true ↔
      ((mapLookup new_locals k).isSome = true ∨ k ∈ parameters.map Token.value) := by
  induction parameters generalizing pgrm new_locals i with
  | nil => simp [bind_parameters]
  | cons param rest ih =>
    intro k
    simp only [bind_parameters]
    rw [ih _ _ _ k, mapLookup_mapInsert_isSome]
    simp
    tauto

/-! ## Compiler invariants: slot assignment under fresh declarations -/

theorem slotsOK_insert_fresh (m : Locals) (k : String)
    (hok : SlotsOK m) (hfresh : mapLookup m k = none) :
    SlotsOK (mapInsert m k (m.length : Int)) ∧
      ∀ p ∈ m, p ∈ mapInsert m k (m.length : Int) := by
  obtain ⟨hkeys, hvals, hbound⟩ := hok
  rw [mapInsert_of_lookup_none m k _ hfresh]
  refine ⟨⟨?_, ?_, ?_⟩, ?_⟩
  · rw [List.map_append, List.nodup_append]
    refine ⟨hkeys, by simp, ?_⟩
    intro a ha hb
    simp only [List.map_cons, List.map_nil, List.mem_singleton] at hb
    subst hb
    exact (mapLookup_eq_none_iff m a).mp hfresh ha
  · rw [List.map_append, List.nodup_append]
    refine ⟨hvals, by simp, ?_⟩
    intro a ha hb
    simp only [List.map_cons, List.map_nil, List.mem_singleton] at hb
    subst hb
    rcases List.mem_map.mp ha with ⟨p, hp, hpa⟩
    have := (hbound p hp).2
    omega
  · intro p hp
    rcases List.mem_append.mp hp with hp | hp
    · have := hbound p hp
      simp only [List.length_append, List.length_cons, List.length_nil]
      constructor
      · exact this.1
      · have h2 := this.2
        push_cast
        push_cast at h2
        omega
    · simp only [List.mem_singleton] at hp
      subst hp
      simp only [List.length_append, List.length_cons, List.length_nil]
      constructor
      · positivity
      · push_cast
        omega
  · intro p hp
    exact List.mem_append.mpr (Or.inl hp)

theorem bind_parameters_slots (parameters : List Token) (pgrm : Program)
    (new_locals : Locals) (narguments i : Nat)
    (hlen : new_locals.length = i)
    (hok : SlotsOK new_locals)
    (hfresh : ∀ p ∈ parameters, mapLookup new_locals p.value = none)
    (hnodup : (parameters.map Token.value).Nodup) :
    SlotsOK (bind_parameters pgrm new_locals narguments i parameters).2 := by
  induction parameters generalizing pgrm new_locals i with
  | nil => simpa [bind_parameters] using hok
  | cons param rest ih =>
    subst hlen
    simp only [bind_parameters]
    have hf : mapLookup new_locals param.value = none := hfresh param (by simp)
    have hstep := slotsOK_insert_fresh new_locals param.value hok hf
    simp only [List.map_cons, List.nodup_cons] at hnodup
    refine ih _ _ _ (length_mapInsert_of_none _ _ _ hf) hstep.1 ?_ hnodup.2
    intro p hp
    rw [← Option.not_isSome_iff_eq_none, mapLookup_mapInsert_isSome]
    push_neg
    constructor
    · intro hv
      exact hnodup.1 (hv ▸ List.mem_map.mpr ⟨p, hp, rfl⟩)
    · simp [hfresh p (List.mem_cons_of_mem _ hp)]

mutual

theorem compile_statement_slots (pgrm : Program) (locals : Locals) (st : Statement)
    (p' : Program) (l' : Locals)
    (h : compile_statement pgrm locals st = .ok (p', l'))
    (hok : SlotsOK locals)
    (hnodup : (stmt_locals st).Nodup)
    (hfresh : ∀ k ∈ stmt_locals st, mapLookup locals k = none) :
    SlotsOK l' ∧ ∀ p ∈ locals, p ∈ l' := by
  cases st with
  | expressionStmt e =>
    simp only [compile_statement, bind, Except.bind] at h
    split at h
    · exact absurd h (by simp)
    · simp only [pure, Except.pure, Except.ok.injEq, Prod.mk.injEq] at h
      obtain ⟨-, h2⟩ := h
      subst h2
      exact ⟨hok, fun p hp => hp⟩
  | returnStmt e =>
    simp only [compile_statement, bind, Except.bind] at h
    split at h
    · exact absurd h (by simp)
    · simp only [pure, Except.pure, Except.ok.injEq, Prod.mk.injEq] at h
      obtain ⟨-, h2⟩ := h
      subst h2
      exact ⟨hok, fun p hp => hp⟩
  | functionDeclaration name parameters body =>
    rw [compile_statement_declaration] at h
    simp only [bind, Except.bind] at h
    split at h
    · exact absurd h (by simp)
    · simp only [pure, Except.pure, Except.ok.injEq, Prod.mk.injEq] at h
      obtain ⟨-, h2⟩ := h
      subst h2
      exact ⟨hok, fun p hp => hp⟩
  | localStmt name e =>
    have hl := compile_local_locals pgrm locals name e p' l' (by
      simpa only [compile_statement] using h)
    subst hl
    have hf : mapLookup locals name.value = none := hfresh name.value (by simp [stmt_locals])
    exact slotsOK_insert_fresh locals name.value hok hf
  | ifStmt test body =>
    simp only [compile_statement, bind, Except.bind] at h
    split at h
    · exact absurd h (by simp)
    · rename_i p1 h1
      split at h
      · exact absurd h (by simp)
      · rename_i res h2
        simp only [pure, Except.pure, Except.ok.injEq, Prod.mk.injEq] at h
        obtain ⟨-, h3⟩ := h
        subst h3
        exact compile_statements_slots _ _ body res.1 res.2 (by rw [← h2]) hok
          (by simpa [stmt_locals] using hnodup)
          (by simpa [stmt_locals] using hfresh)

theorem compile_statements_slots (pgrm : Program) (locals : Locals) (sts : List Statement)
    (p' : Program) (l' : Locals)
    (h : compile_statements pgrm locals sts = .ok (p', l'))
    (hok : SlotsOK locals)
    (hnodup : (stmts_locals sts).Nodup)
    (hfresh : ∀ k ∈ stmts_locals sts, mapLookup locals k = none) :
    SlotsOK l' ∧ ∀ p ∈ locals, p ∈ l' := by
  cases sts with
  | nil =>
    simp only [compile_statements, pure, Except.pure, Except.ok.injEq, Prod.mk.injEq] at h
    obtain ⟨-, h2⟩ := h
    subst h2
    exact ⟨hok, fun p hp => hp⟩
  | cons s ss =>
    simp only [compile_statements, bind, Except.bind] at h
    split at h
    · exact absurd h (by simp)
    · rename_i res h1
      have hnd := (List.nodup_append.mp (by simpa [stmts_locals] using hnodup))
      have hs := compile_statement_slots pgrm locals s res.1 res.2 (by rw [← h1]) hok hnd.1
        (fun k hk => hfresh k (by simp [stmts_locals, hk]))
      have hkeys := compile_statement_locals_keys pgrm locals s res.1 res.2 (by rw [← h1])
      have hss := compile_statements_slots res.1 res.2 ss p' l' h hs.1 hnd.2.1 ?_
      · exact ⟨hss.1, fun p hp => hss.2 p (hs.2 p hp)⟩
      · intro k hk
        rw [← Option.not_isSome_iff_eq_none, hkeys k]
        push_neg
        constructor
        · simp [hfresh k (by simp [stmts_locals, hk])]
        · intro hmem
          exact hnd.2.2 hmem hk

end

/-! ## Compiler invariants: the local-name table always has distinct keys -/

theorem bind_parameters_locals_nodup (parameters : List Token) (pgrm : Program)
    (new_locals : Locals) (narguments i : Nat)
    (h : (new_locals.map Prod.fst).Nodup) :
    ((bind_parameters pgrm new_locals narguments i parameters).2.map Prod.fst).Nodup := by
  induction parameters generalizing pgrm new_locals i with
  | nil => simpa [bind_parameters] using h
  | cons param rest ih =>
    simp only [bind_parameters]
    exact ih _ _ _ (nodup_keys_mapInsert _ _ _ h)

mutual

theorem compile_statement_locals_nodup (pgrm : Program) (locals : Locals) (st : Statement)
    (p' : Program) (l' : Locals)
    (h : compile_statement pgrm locals st = .ok (p', l'))
    (hn : (locals.map Prod.fst).Nodup) : (l'.map Prod.fst).Nodup := by
  cases st with
  | expressionStmt e =>
    simp only [compile_statement, bind, Except.bind] at h
    split at h
    · exact absurd h (by simp)
    · simp only [pure, Except.pure, Except.ok.injEq, Prod.mk.injEq] at h
      obtain ⟨-, h2⟩ := h
      subst h2
      exact hn
  | returnStmt e =>
    simp only [compile_statement, bind, Except.bind] at h
    split at h
    · exact absurd h (by simp)
    · simp only [pure, Except.pure, Except.ok.injEq, Prod.mk.injEq] at h
      obtain ⟨-, h2⟩ := h
      subst h2
      exact hn
  | functionDeclaration name parameters body =>
    rw [compile_statement_declaration] at h
    simp only [bind, Except.bind] at h
    split at h
    · exact absurd h (by simp)
    · simp only [pure, Except.pure, Except.ok.injEq, Prod.mk.injEq] at h
      obtain ⟨-, h2⟩ := h
      subst h2
      exact hn
  | localStmt name e =>
    have hl := compile_local_locals pgrm locals name e p' l' (by
      simpa only [compile_statement] using h)
    subst hl
    exact nodup_keys_mapInsert _ _ _ hn
  | ifStmt test body =>
    simp only [compile_statement, bind, Except.bind] at h
    split at h
    · exact absurd h (by simp)
    · rename_i p1 h1
      split at h
      · exact absurd h (by simp)
      · rename_i res h2
        simp only [pure, Except.pure, Except.ok.injEq, Prod.mk.injEq] at h
        obtain ⟨-, h3⟩ := h
        subst h3
        exact compile_statements_locals_nodup _ _ body res.1 res.2 (by rw [← h2]) hn

theorem compile_statements_locals_nodup (pgrm : Program) (locals : Locals)
    (sts : List Statement) (p' : Program) (l' : Locals)
    (h : compile_statements pgrm locals sts = .ok (p', l'))
    (hn : (locals.map Prod.fst).Nodup) : (l'.map Prod.fst).Nodup := by
  cases sts with
  | nil =>
    simp only [compile_statements, pure, Except.pure, Except.ok.injEq, Prod.mk.injEq] at h
    obtain ⟨-, h2⟩ := h
    subst h2
    exact hn
  | cons s ss =>
    simp only [compile_statements, bind, Except.bind] at h
    split at h
    · exact absurd h (by simp)
    · rename_i res h1
      exact compile_statements_locals_nodup res.1 res.2 ss p' l' h
        (compile_statement_locals_nodup pgrm locals s res.1 res.2 (by rw [← h1]) hn)

end

/-- A map with distinct keys has as many entries as the distinct names
in any list with the same members as its key set. -/
theorem length_eq_dedup_of_keys (m : Locals) (names : List String)
    (hnodup : (m.map Prod.fst).Nodup)
    (hmem : ∀ k, k ∈ m.map Prod.fst ↔ k ∈ names) :
    m.length = names.dedup.length := by
  have hperm : (m.map Prod.fst).Perm names.dedup :=
    (List.perm_ext_iff_of_nodup hnodup (List.nodup_dedup names)).mpr
      (fun a => by rw [hmem a, List.mem_dedup])
  have := hperm.length_eq
  simpa using this

/-- Unfolding a successful `compile_declaration`: the body compiles
from the post-guard-jump program with the parameter-seeded fresh table,
and the resulting program records the function symbol (location = first
instruction after the guard jump, arity = parameter count, `nlocals` =
size of the final local-name table) and then the `function_done` label
at the end-of-body address. -/
theorem compile_declaration_ok (pgrm : Program) (name : Token) (parameters : List Token)
    (body : List Statement) (p' : Program)
    (h : compile_declaration pgrm name parameters body = .ok p') :
    ∃ midP new_locals,
      compile_statements
          (bind_parameters
            (emit pgrm (.jump ("function_done_" ++ toString pgrm.instructions.length)))
            [] parameters.length 0 parameters).1
          (bind_parameters
            (emit pgrm (.jump ("function_done_" ++ toString pgrm.instructions.length)))
            [] parameters.length 0 parameters).2 body = .ok (midP, new_locals) ∧
      p'.syms = mapInsert
          (mapInsert midP.syms name.value
            ⟨((pgrm.instructions.length + 1 : Nat) : Int), parameters.length,
             new_locals.length⟩)
          ("function_done_" ++ toString pgrm.instructions.length)
          ⟨(midP.instructions.length : Int), 0, 0⟩ ∧
      p'.instructions = midP.instructions := by
  simp only [compile_declaration, bind, Except.bind] at h
  split at h
  · exact absurd h (by simp)
  · rename_i res h1
    refine ⟨res.1, res.2, by rw [← h1], ?_, ?_⟩
    · simp only [pure, Except.pure, Except.ok.injEq] at h
      subst h
      simp [emit]
    · simp only [pure, Except.pure, Except.ok.injEq] at h
      subst h
      rfl

/-! ## Compiler invariants: what gets added to the symbol table -/

mutual

theorem compile_statement_syms_sub (pgrm : Program) (locals : Locals) (st : Statement)
    (p' : Program) (l' : Locals)
    (h : compile_statement pgrm locals st = .ok (p', l')) :
    ∀ k, (mapLookup p'.syms k).isSome = true →
      (mapLookup pgrm.syms k).isSome = true ∨ k ∈ stmt_funs st ∨ syntheticLabel k := by
  cases st with
  | expressionStmt e =>
    simp only [compile_statement, bind, Except.bind] at h
    split at h
    · exact absurd h (by simp)
    · rename_i p1 h1
      simp only [pure, Except.pure, Except.ok.injEq, Prod.mk.injEq] at h
      obtain ⟨h2, -⟩ := h
      subst h2
      intro k hk
      rw [compile_expression_syms pgrm locals e p1 h1] at hk
      exact Or.inl hk
  | returnStmt e =>
    simp only [compile_statement, bind, Except.bind] at h
    split at h
    · exact absurd h (by simp)
    · rename_i p1 h1
      simp only [pure, Except.pure, Except.ok.injEq, Prod.mk.injEq] at h
      obtain ⟨h2, -⟩ := h
      subst h2
      intro k hk
      rw [compile_return_syms pgrm locals e p1 h1] at hk
      exact Or.inl hk
  | localStmt name e =>
    intro k hk
    rw [compile_local_syms pgrm locals name e p' l' (by simpa only [compile_statement] using h)]
      at hk
    exact Or.inl hk
  | ifStmt test body =>
    simp only [compile_statement, bind, Except.bind] at h
    split at h
    · exact absurd h (by simp)
    · rename_i p1 h1
      split at h
      · exact absurd h (by simp)
      · rename_i res h2
        simp only [pure, Except.pure, Except.ok.injEq, Prod.mk.injEq] at h
        obtain ⟨h3, -⟩ := h
        subst h3
        intro k hk
        simp only at hk
        rcases (mapLookup_mapInsert_isSome _ _ _ _).mp hk with hk | hk
        · exact Or.inr (Or.inr (Or.inr ⟨toString p1.instructions.length, by rw [hk]⟩))
        · rcases compile_statements_syms_sub _ _ body res.1 res.2 (by rw [← h2]) k hk with
            hk | hk | hk
          · rw [show (emit p1 (Instruction.jumpIfNotZero
                ("if_else_" ++ toString p1.instructions.length))).syms = p1.syms from rfl,
              compile_expression_syms pgrm locals test p1 h1] at hk
            exact Or.inl hk
          · exact Or.inr (Or.inl (by simpa [stmt_funs] using hk))
          · exact Or.inr (Or.inr hk)
  | functionDeclaration name parameters body =>
    rw [compile_statement_declaration] at h
    simp only [bind, Except.bind] at h
    split at h
    · exact absurd h (by simp)
    · rename_i pd h1
      simp only [pure, Except.pure, Except.ok.injEq, Prod.mk.injEq] at h
      obtain ⟨h2, -⟩ := h
      subst h2
      obtain ⟨midP, new_locals, hbody, hsyms, -⟩ :=
        compile_declaration_ok pgrm name parameters body pd h1
      intro k hk
      rw [hsyms] at hk
      rcases (mapLookup_mapInsert_isSome _ _ _ _).mp hk with hk | hk
      · exact Or.inr (Or.inr (Or.inl ⟨toString pgrm.instructions.length, by rw [hk]⟩))
      · rcases (mapLookup_mapInsert_isSome _ _ _ _).mp hk with hk | hk
        · exact Or.inr (Or.inl (by simp [stmt_funs, hk]))
        · rcases compile_statements_syms_sub _ _ body midP new_locals hbody k hk with
            hk | hk | hk
          · rw [bind_parameters_syms] at hk
            exact Or.inl hk
          · exact Or.inr (Or.inl (by simp [stmt_funs, hk]))
          · exact Or.inr (Or.inr hk)

theorem compile_statements_syms_sub (pgrm : Program) (locals : Locals)
    (sts : List Statement) (p' : Program) (l' : Locals)
    (h : compile_statements pgrm locals sts = .ok (p', l')) :
    ∀ k, (mapLookup p'.syms k).isSome = true →
      (mapLookup pgrm.syms k).isSome = true ∨ k ∈ stmts_funs sts ∨ syntheticLabel k := by
  cases sts with
  | nil =>
    simp only [compile_statements, pure, Except.pure, Except.ok.injEq, Prod.mk.injEq] at h
    obtain ⟨h1, -⟩ := h
    subst h1
    exact fun k hk => Or.inl hk
  | cons s ss =>
    simp only [compile_statements, bind, Except.bind] at h
    split at h
    · exact absurd h (by simp)
    · rename_i res h1
      intro k hk
      rcases compile_statements_syms_sub res.1 res.2 ss p' l' h k hk with hk | hk | hk
      · rcases compile_statement_syms_sub pgrm locals s res.1 res.2 (by rw [← h1]) k hk with
          hk | hk | hk
        · exact Or.inl hk
        · exact Or.inr (Or.inl (by simp [stmts_funs, hk]))
        · exact Or.inr (Or.inr hk)
      · exact Or.inr (Or.inl (by simp [stmts_funs, hk]))
      · exact Or.inr (Or.inr hk)

end

/-! ## Compiler invariants: undeclared identifiers abort compilation -/

mutual

theorem compile_expression_undeclared (pgrm : Program) (locals : Locals)
    (scope : List String) (e : Expression)
    (hscope : ∀ k, (mapLookup locals k).isSome = true → k ∈ scope)
    (hbad : has_undeclared_expr scope e = true) :
    isErr (compile_expression pgrm locals e) = true := by
  cases e with
  | literal l =>
    cases l with
    | number t => simp [has_undeclared_expr] at hbad
    | identifier t =>
      simp only [has_undeclared_expr, Bool.not_eq_true', decide_eq_false_iff_not] at hbad
      have hnotin : t.value ∉ scope := hbad
      have hnone : mapLookup locals t.value = none := by
        rw [← Option.not_isSome_iff_eq_none]
        intro hs
        exact hnotin (hscope t.value hs)
      simp [compile_expression, compile_literal, hnone, isErr]
  | binaryOperation operator left right =>
    simp only [has_undeclared_expr, Bool.or_eq_true] at hbad
    cases hcl : compile_expression pgrm locals left with
    | error err => simp [compile_expression, bind, Except.bind, hcl, isErr]
    | ok p1 =>
      have hbl : ¬ has_undeclared_expr scope left = true := by
        intro hb
        have := compile_expression_undeclared pgrm locals scope left hscope hb
        rw [hcl] at this
        simp [isErr] at this
      have hbr : has_undeclared_expr scope right = true := hbad.resolve_left hbl
      cases hcr : compile_expression p1 locals right with
      | error err => simp [compile_expression, bind, Except.bind, hcl, hcr, isErr]
      | ok p2 =>
        have := compile_expression_undeclared p1 locals scope right hscope hbr
        rw [hcr] at this
        simp [isErr] at this
  | functionCall name arguments =>
    simp only [has_undeclared_expr] at hbad
    cases hca : compile_expressions pgrm locals arguments with
    | error err => simp [compile_expression, bind, Except.bind, hca, isErr]
    | ok p1 =>
      have := compile_expressions_undeclared pgrm locals scope arguments hscope hbad
      rw [hca] at this
      simp [isErr] at this

theorem compile_expressions_undeclared (pgrm : Program) (locals : Locals)
    (scope : List String) (es : List Expression)
    (hscope : ∀ k, (mapLookup locals k).isSome = true → k ∈ scope)
    (hbad : has_undeclared_list scope es = true) :
    isErr (compile_expressions pgrm locals es) = true := by
  cases es with
  | nil => simp [has_undeclared_list] at hbad
  | cons e es =>
    simp only [has_undeclared_list, Bool.or_eq_true] at hbad
    cases hce : compile_expression pgrm locals e with
    | error err => simp [compile_expressions, bind, Except.bind, hce, isErr]
    | ok p1 =>
      have hbe : ¬ has_undeclared_expr scope e = true := by
        intro hb
        have := compile_expression_undeclared pgrm locals scope e hscope hb
        rw [hce] at this
        simp [isErr] at this
      have hbes : has_undeclared_list scope es = true := hbad.resolve_left hbe
      cases hces : compile_expressions p1 locals es with
      | error err => simp [compile_expressions, bind, Except.bind, hce, hces, isErr]
      | ok p2 =>
        have := compile_expressions_undeclared p1 locals scope es hscope hbes
        rw [hces] at this
        simp [isErr] at this

end

mutual

theorem compile_statement_undeclared (pgrm : Program) (locals : Locals)
    (scope : List String) (st : Statement)
    (hscope : ∀ k, (mapLookup locals k).isSome = true → k ∈ scope)
    (hsub : ∀ k ∈ stmt_locals st, k ∈ scope)
    (hbad : has_undeclared_stmt scope st = true) :
    isErr (compile_statement pgrm locals st) = true := by
  cases st with
  | expressionStmt e =>
    simp only [has_undeclared_stmt] at hbad
    cases hce : compile_expression pgrm locals e with
    | error err => simp [compile_statement, bind, Except.bind, hce, isErr]
    | ok p1 =>
      have := compile_expression_undeclared pgrm locals scope e hscope hbad
      rw [hce] at this
      simp [isErr] at this
  | returnStmt e =>
    simp only [has_undeclared_stmt] at hbad
    cases hce : compile_expression pgrm locals e with
    | error err =>
      simp [compile_statement, compile_return, bind, Except.bind, hce, isErr]
    | ok p1 =>
      have := compile_expression_undeclared pgrm locals scope e hscope hbad
      rw [hce] at this
      simp [isErr] at this
  | localStmt name e =>
    simp only [has_undeclared_stmt] at hbad
    have hscope' : ∀ k,
        (mapLookup (mapInsert locals name.value (locals.length : Int)) k).isSome = true →
          k ∈ scope := by
      intro k hk
      rcases (mapLookup_mapInsert_isSome _ _ _ _).mp hk with hk | hk
      · subst hk
        exact hsub name.value (by simp [stmt_locals])
      · exact hscope k hk
    cases hce : compile_expression pgrm (mapInsert locals name.value (locals.length : Int)) e with
    | error err =>
      simp [compile_statement, compile_local, bind, Except.bind, hce, isErr]
    | ok p1 =>
      have := compile_expression_undeclared pgrm
        (mapInsert locals name.value (locals.length : Int)) scope e hscope' hbad
      rw [hce] at this
      simp [isErr] at this
  | ifStmt test body =>
    simp only [has_undeclared_stmt, Bool.or_eq_true] at hbad
    cases hct : compile_expression pgrm locals test with
    | error err => simp [compile_statement, bind, Except.bind, hct, isErr]
    | ok p1 =>
      have hbt : ¬ has_undeclared_expr scope test = true := by
        intro hb
        have := compile_expression_undeclared pgrm locals scope test hscope hb
        rw [hct] at this
        simp [isErr] at this
      have hbb : has_undeclared_stmts scope body = true := hbad.resolve_left hbt
      have hrec := compile_statements_undeclared
        (emit p1 (.jumpIfNotZero ("if_else_" ++ toString p1.instructions.length)))
        locals scope body hscope (by simpa [stmt_locals] using hsub) hbb
      cases hcb : compile_statements
          (emit p1 (.jumpIfNotZero ("if_else_" ++ toString p1.instructions.length)))
          locals body with
      | error err => simp [compile_statement, bind, Except.bind, hct, hcb, isErr]
      | ok res =>
        rw [hcb] at hrec
        simp [isErr] at hrec
  | functionDeclaration name parameters body =>
    simp only [has_undeclared_stmt] at hbad
    have hseed : ∀ k,
        (mapLookup (bind_parameters
          (emit pgrm (.jump ("function_done_" ++ toString pgrm.instructions.length)))
          [] parameters.length 0 parameters).2 k).isSome = true →
          k ∈ parameters.map Token.value ++ stmts_locals body := by
      intro k hk
      rcases (bind_parameters_locals_keys parameters _ [] _ _ k).mp hk with hk | hk
      · simp [mapLookup] at hk
      · exact List.mem_append.mpr (Or.inl hk)
    have hrec := compile_statements_undeclared
      (bind_parameters
        (emit pgrm (.jump ("function_done_" ++ toString pgrm.instructions.length)))
        [] parameters.length 0 parameters).1
      (bind_parameters
        (emit pgrm (.jump ("function_done_" ++ toString pgrm.instructions.length)))
        [] parameters.length 0 parameters).2
      (parameters.map Token.value ++ stmts_locals body) body hseed
      (fun k hk => List.mem_append.mpr (Or.inr hk)) hbad
    cases hcb : compile_statements
        (bind_parameters
          (emit pgrm (.jump ("function_done_" ++ toString pgrm.instructions.length)))
          [] parameters.length 0 parameters).1
        (bind_parameters
          (emit pgrm (.jump ("function_done_" ++ toString pgrm.instructions.length)))
          [] parameters.length 0 parameters).2 body with
    | error err => simp [compile_statement, bind, Except.bind, hcb, isErr]
    | ok res =>
      rw [hcb] at hrec
      simp [isErr] at hrec

theorem compile_statements_undeclared (pgrm : Program) (locals : Locals)
    (scope : List String) (sts : List Statement)
    (hscope : ∀ k, (mapLookup locals k).isSome = true → k ∈ scope)
    (hsub : ∀ k ∈ stmts_locals sts, k ∈ scope)
    (hbad : has_undeclared_stmts scope sts = true) :
    isErr (compile_statements pgrm locals sts) = true := by
  cases sts with
  | nil => simp [has_undeclared_stmts] at hbad
  | cons s ss =>
    simp only [has_undeclared_stmts, Bool.or_eq_true] at hbad
    cases hcs : compile_statement pgrm locals s with
    | error err => simp [compile_statements, bind, Except.bind, hcs, isErr]
    | ok res =>
      have hbs : ¬ has_undeclared_stmt scope s = true := by
        intro hb
        have := compile_statement_undeclared pgrm locals scope s hscope
          (fun k hk => hsub k (by simp [stmts_locals, hk])) hb
        rw [hcs] at this
        simp [isErr] at this
      have hbss : has_undeclared_stmts scope ss = true := hbad.resolve_left hbs
      have hscope' : ∀ k, (mapLookup res.2 k).isSome = true → k ∈ scope := by
        intro k hk
        rcases (compile_statement_locals_keys pgrm locals s res.1 res.2
            (by rw [← hcs]) k).mp hk with hk | hk
        · exact hscope k hk
        · exact hsub k (by simp [stmts_locals, hk])
      have hrec := compile_statements_undeclared res.1 res.2 scope ss hscope'
        (fun k hk => hsub k (by simp [stmts_locals, hk])) hbss
      cases hcss : compile_statements res.1 res.2 ss with
      | error err => simp [compile_statements, bind, Except.bind, hcs, hcss, isErr]
      | ok res2 =>
        rw [hcss] at hrec
        simp [isErr] at hrec

end

/-! ## Further helper lemmas for the claims -/

theorem mapLookup_mem {α : Type} (m : List (String × α)) (k : String) (v : α)
    (h : mapLookup m k = some v) : (k, v) ∈ m := by
  induction m with
  | nil => simp [mapLookup] at h
  | cons p m ih =>
    obtain ⟨a, b⟩ := p
    by_cases hp : a = k
    · subst hp
      simp only [mapLookup, if_true, eq_self_iff_true, Option.some.injEq] at h
      subst h
      simp
    · simp only [mapLookup, hp, if_false] at h
      exact List.mem_cons_of_mem _ (ih h)

/-- A short name is not a compiler-generated label. -/
theorem not_syntheticLabel_short (s : String) (h1 : s.length < 8) : ¬ syntheticLabel s := by
  rintro (⟨t, ht⟩ | ⟨t, ht⟩)
  · have h2 := congrArg String.length ht
    rw [String.length_append] at h2
    have h14 : ("function_done_" : String).length = 14 := rfl
    omega
  · have h2 := congrArg String.length ht
    rw [String.length_append] at h2
    have h8 : ("if_else_" : String).length = 8 := rfl
    omega

/-- The symbol a successful `compile_declaration` leaves under the
function's name (provided the name does not collide with the
`function_done` label generated for this declaration). -/
theorem compile_declaration_lookup (pgrm : Program) (name : Token) (parameters : List Token)
    (body : List Statement) (p' : Program)
    (h : compile_declaration pgrm name parameters body = .ok p')
    (hne : name.value ≠ "function_done_" ++ toString pgrm.instructions.length) :
    ∃ midP new_locals,
      compile_statements
          (bind_parameters
            (emit pgrm (.jump ("function_done_" ++ toString pgrm.instructions.length)))
            [] parameters.length 0 parameters).1
          (bind_parameters
            (emit pgrm (.jump ("function_done_" ++ toString pgrm.instructions.length)))
            [] parameters.length 0 parameters).2 body = .ok (midP, new_locals) ∧
      mapLookup p'.syms name.value =
        some ⟨((pgrm.instructions.length + 1 : Nat) : Int), parameters.length,
              new_locals.length⟩ := by
  obtain ⟨midP, new_locals, hbody, hsyms, -⟩ :=
    compile_declaration_ok pgrm name parameters body p' h
  refine ⟨midP, new_locals, hbody, ?_⟩
  rw [hsyms, mapLookup_mapInsert_ne _ _ _ _ (fun hh => hne hh.symm)]
  exact mapLookup_mapInsert_self _ _ _

/-- The size of the callee's final local-name table equals the number
of distinct parameter and declared-local names of the body. -/
theorem compile_declaration_nlocals_count (pgrm : Program) (parameters : List Token)
    (body : List Statement) (midP : Program) (new_locals : Locals)
    (hbody : compile_statements
        (bind_parameters
          (emit pgrm (.jump ("function_done_" ++ toString pgrm.instructions.length)))
          [] parameters.length 0 parameters).1
        (bind_parameters
          (emit pgrm (.jump ("function_done_" ++ toString pgrm.instructions.length)))
          [] parameters.length 0 parameters).2 body = .ok (midP, new_locals)) :
    new_locals.length = ((parameters.map Token.value) ++ stmts_locals body).dedup.length := by
  apply length_eq_dedup_of_keys
  · exact compile_statements_locals_nodup _ _ body midP new_locals hbody
      (bind_parameters_locals_nodup parameters _ [] _ _ (by simp))
  · intro k
    rw [← mapLookup_isSome_iff,
      compile_statements_locals_keys _ _ body midP new_locals hbody k,
      bind_parameters_locals_keys parameters _ [] parameters.length 0 k]
    simp only [mapLookup, Option.isSome_none, Bool.false_eq_true, false_or, List.mem_append]

/-! ## The claims -/

/-- C1 (counterexample): for `function id(x) return x; end id(42);`,
the stack immediately before the `Call` instruction is `[42]` (the
argument is already on it), and after the call returns the stack is
`[42]` again — not `[42] ++ [42]` as "the stack exactly as it was
immediately before the Call plus the single return value on top" would
require; the caller-visible depth is unchanged, not increased by one,
relative to the moment just before the `Call` instruction. -/
theorem C1_counterexample :
    compile ast_id = .ok P_id ∧
    steps P_id 2 initial_state = .ok ⟨5, 0, [42], []⟩ ∧
    P_id.instructions.get? 5 = some (.call "id" 1) ∧
    run P_id 20 initial_state = .halted ⟨6, 0, [42], []⟩ ∧
    ([42] : List Int) ≠ [42] ++ [42] :=
  ⟨rfl, rfl, rfl, rfl, by decide⟩

/-- C1 (amended): executing `Return` on a frame built by `Call` (saved
frame pointer, saved return address, saved declared-argument count, with
exactly that many argument values below the frame words) discards the
callee's frame and the arguments, restores `pc` to the saved return
address and `fp` to the saved frame pointer, and leaves the caller's
stack as it was before the arguments were pushed, plus the single
return value on top.  In particular `function id(x) return x; end`
called as `id(42)` halts with exactly `[42]` on the stack: depth one
more than before the call expression began evaluating. -/
theorem C1_return_restores_caller :
    (∀ (pgrm : Program) (s : VMState) (base args frame : List Int)
        (savedFp savedPc retv : Int) (n : Nat),
        0 ≤ s.pc →
        pgrm.instructions.get? s.pc.toNat = some .ret →
        s.data = base ++ args ++ [savedFp, savedPc, (n : Int)] ++ frame ++ [retv] →
        args.length = n →
        s.sp = ((base.length + n + 3 : Nat) : Int) →
        step pgrm s = .ok ⟨savedPc, savedFp, base ++ [retv], s.output⟩) ∧
    run P_id 20 initial_state = .halted ⟨6, 0, [42], []⟩ ∧
    ([42] : List Int) = [] ++ [42] := by
  refine ⟨?_, rfl, rfl⟩
  intro pgrm s base args frame savedFp savedPc retv n hpc hin hdata hargs hsp
  exact (step_eq_exec pgrm s _ hpc hin).trans
    (exec_ret pgrm s base args frame savedFp savedPc retv n hdata hargs hsp)

theorem C1_witness :
    step P_id ⟨3, 4, [42, 0, 6, 1, 42, 42], []⟩ = .ok ⟨6, 0, [42], []⟩ := by
  exact C1_return_restores_caller.1 P_id ⟨3, 4, [42, 0, 6, 1, 42, 42], []⟩
    [] [42] [42] 0 6 42 1 (by decide) (by decide) rfl rfl rfl

/-- C2: executing `Call(label, k)` for a user-defined function (any
label other than `print`, resolved in the symbol table) pushes, in
order, the caller's frame pointer, the return address `pc + 1`, and the
callee's declared argument count from the symbol table; `fp` becomes
the stack length after those pushes (the callee's frame base), `pc`
becomes the callee's symbol location, and `nlocals` zero-filled slots
are pushed for the callee's frame. -/
theorem C2_call_establishes_frame (pgrm : Program) (s : VMState) (label : String) (k : Nat)
    (sym : Symbol)
    (hpc : 0 ≤ s.pc)
    (hin : pgrm.instructions.get? s.pc.toNat = some (.call label k))
    (hnp : label ≠ "print")
    (hsym : mapLookup pgrm.syms label = some sym) :
    step pgrm s = .ok ⟨sym.location, ((s.data.length + 3 : Nat) : Int),
      s.data ++ [s.sp, s.pc + 1, (sym.narguments : Int)] ++ List.replicate sym.nlocals 0,
      s.output⟩ :=
  (step_eq_exec pgrm s _ hpc hin).trans (exec_call_user pgrm s label k sym hnp hsym)

theorem C2_witness :
    step P_id ⟨5, 0, [42], []⟩ = .ok ⟨1, 4, [42, 0, 6, 1, 0], []⟩ := by
  exact C2_call_establishes_frame P_id ⟨5, 0, [42], []⟩ "id" 1 ⟨1, 1, 1⟩
    (by decide) (by decide) (by decide) (by decide)

/-- C3 (counterexample): in the compiled program of
`if 0 < 0 then return 1; end return 2;` the branch label `if_else_3`
resolves to location `5`, yet executing the `JumpIfNotZero` at `pc = 3`
with `0` on top of the stack leaves `pc = 6`, not `5`: the program
counter does not become the resolved location of the label. -/
theorem C3_counterexample :
    compile ast_if_top = .ok P_if_top ∧
    mapLookup P_if_top.syms "if_else_3" = some ⟨5, 0, 0⟩ ∧
    P_if_top.instructions.get? 3 = some (.jumpIfNotZero "if_else_3") ∧
    steps P_if_top 3 initial_state = .ok ⟨3, 0, [0], []⟩ ∧
    steps P_if_top 4 initial_state = .ok ⟨6, 0, [], []⟩ ∧
    (6 : Int) ≠ 5 :=
  ⟨rfl, rfl, rfl, rfl, rfl, by decide⟩

/-- C3 (amended): executing `JumpIfNotZero(label)` pops exactly one
value; if the popped value is zero the program counter becomes the
resolved location of the label **plus one** (the interpreter sets `pc`
to the location and then unconditionally increments it — which is why
`compile_if` registers the label one instruction early); otherwise
execution falls through to `pc + 1`. -/
theorem C3_branch_target (pgrm : Program) (s : VMState) (label : String) (sym : Symbol)
    (d : List Int) (top : Int)
    (hpc : 0 ≤ s.pc)
    (hin : pgrm.instructions.get? s.pc.toNat = some (.jumpIfNotZero label))
    (hdata : s.data = d ++ [top])
    (hsym : mapLookup pgrm.syms label = some sym) :
    step pgrm s = .ok ⟨(if top = 0 then sym.location + 1 else s.pc + 1), s.sp, d, s.output⟩ :=
  (step_eq_exec pgrm s _ hpc hin).trans (exec_jumpIfNotZero pgrm s label sym d top hdata hsym)

theorem C3_witness :
    step P_if_top ⟨3, 0, [0], []⟩ = .ok ⟨6, 0, [], []⟩ := by
  exact C3_branch_target P_if_top ⟨3, 0, [0], []⟩ "if_else_3" ⟨5, 0, 0⟩ [] 0
    (by decide) (by decide) rfl (by decide)

/-- C4 (counterexample): the program `if 0 < 0 then return 1; end
return 2;` does not yield 2 — it aborts.  The false test does skip the
body, but the top-level `return 2;` then pops the saved argument count
of a frame that was never established, a stack underflow. -/
theorem C4_counterexample :
    compile ast_if_top = .ok P_if_top ∧
    run P_if_top 50 initial_state = .aborted .popEmpty :=
  ⟨rfl, rfl⟩

/-- C4 (amended): with a test evaluating to zero, the branch jumps
straight from the `JumpIfNotZero` at `pc = 3` past the body
(instructions 4 and 5) to the compiled `return 2;` at `pc = 6`, so the
body is skipped entirely; but at top level the `Return` then aborts
with a stack underflow while restoring a nonexistent frame.  The result
2 is observable once the same statements run inside a function:
`function f() if 0 < 0 then return 1; end return 2; end f();` halts
with exactly `[2]` on the stack. -/
theorem C4_if_false_skips_body :
    compile ast_if_top = .ok P_if_top ∧
    steps P_if_top 3 initial_state = .ok ⟨3, 0, [0], []⟩ ∧
    steps P_if_top 4 initial_state = .ok ⟨6, 0, [], []⟩ ∧
    run P_if_top 50 initial_state = .aborted .popEmpty ∧
    compile ast_if_fn = .ok P_if_fn ∧
    run P_if_fn 50 initial_state = .halted ⟨10, 0, [2], []⟩ :=
  ⟨rfl, rfl, rfl, rfl, rfl, rfl⟩

/-- C7: `Call("print", k)` is intercepted before any user-symbol lookup
(the theorem holds for every program, whatever its symbol table says
about `print`): it pops exactly `k` values, appends one output line
holding them in the order they are popped (the reverse of the order
they were pushed, hence of source order, since `compile_function_call`
compiles arguments left to right), establishes no call frame, and falls
through to `pc + 1`.  Concretely, `print(1, 2, 3);` writes the line
`3 2 1`. -/
theorem C7_print_intercepted :
    (∀ (pgrm : Program) (s : VMState) (k : Nat) (rest vals : List Int),
        0 ≤ s.pc →
        pgrm.instructions.get? s.pc.toNat = some (.call "print" k) →
        s.data = rest ++ vals →
        vals.length = k →
        step pgrm s = .ok ⟨s.pc + 1, s.sp, rest, s.output ++ [vals.reverse]⟩) ∧
    compile ast_print = .ok P_print ∧
    run P_print 20 initial_state = .halted ⟨4, 0, [], [[3, 2, 1]]⟩ := by
  refine ⟨?_, rfl, rfl⟩
  intro pgrm s k rest vals hpc hin hdata hlen
  exact (step_eq_exec pgrm s _ hpc hin).trans (exec_call_print pgrm s k rest vals hdata hlen)

theorem C7_witness :
    step P_print ⟨3, 0, [1, 2, 3], []⟩ = .ok ⟨4, 0, [], [[3, 2, 1]]⟩ := by
  exact C7_print_intercepted.1 P_print ⟨3, 0, [1, 2, 3], []⟩ 3 [] [1, 2, 3]
    (by decide) (by decide) rfl rfl

/-- C5 (counterexample): compiling `function id(x) return x; end` into
an empty program registers `id` only once, after the body.  At the
point where the body has just been compiled (the exact
`compile_statements` call made by `compile_declaration`), the symbol
table is still empty: no entry for `id` exists while its own body is
being compiled, despite the source comment "Overwrite function
lookup". -/
theorem C5_counterexample :
    compile_declaration ⟨[], []⟩ (tokIdent "id") [tokIdent "x"] [.returnStmt (ident "x")] =
      .ok P_id_decl ∧
    compile_statements
        (bind_parameters (emit ⟨[], []⟩ (.jump "function_done_0")) [] 1 0 [tokIdent "x"]).1
        (bind_parameters (emit ⟨[], []⟩ (.jump "function_done_0")) [] 1 0 [tokIdent "x"]).2
        [.returnStmt (ident "x")] =
      .ok (⟨[], [.jump "function_done_0", .moveMinusSP 0 0, .dupPlusSP 0, .ret]⟩, [("x", 0)]) ∧
    mapLookup (⟨[], [.jump "function_done_0", .moveMinusSP 0 0, .dupPlusSP 0,
      .ret]⟩ : Program).syms "id" = none ∧
    mapLookup P_id_decl.syms "id" = some ⟨1, 1, 1⟩ :=
  ⟨rfl, rfl, rfl, rfl⟩

/-- C5 (amended): the compiler registers the function's name exactly
once, after the body has been compiled, with the final metadata and
location pointing at the first instruction inside the body (right
after the guard `Jump`).  While the body is being compiled no
symbol-table entry for the name exists, provided none existed before
and the body does not itself declare a function of the same name. -/
theorem C5_registered_once_after_body (pgrm : Program) (name : Token)
    (parameters : List Token) (body : List Statement) (p' : Program)
    (h : compile_declaration pgrm name parameters body = .ok p')
    (hns : ¬ syntheticLabel name.value)
    (hnf : name.value ∉ stmts_funs body)
    (hnew : mapLookup pgrm.syms name.value = none) :
    (∀ midP midL,
        compile_statements
            (bind_parameters
              (emit pgrm (.jump ("function_done_" ++ toString pgrm.instructions.length)))
              [] parameters.length 0 parameters).1
            (bind_parameters
              (emit pgrm (.jump ("function_done_" ++ toString pgrm.instructions.length)))
              [] parameters.length 0 parameters).2 body = .ok (midP, midL) →
        mapLookup midP.syms name.value = none) ∧
    (mapLookup p'.syms name.value).map Symbol.location =
      some ((pgrm.instructions.length + 1 : Nat) : Int) := by
  constructor
  · intro midP midL hmid
    rw [← Option.not_isSome_iff_eq_none]
    intro hsome
    rcases compile_statements_syms_sub _ _ body midP midL hmid name.value hsome with hk | hk | hk
    · rw [bind_parameters_syms] at hk
      rw [show (emit pgrm (Instruction.jump
          ("function_done_" ++ toString pgrm.instructions.length))).syms = pgrm.syms from rfl,
        hnew] at hk
      simp at hk
    · exact hnf hk
    · exact hns hk
  · have hne : name.value ≠ "function_done_" ++ toString pgrm.instructions.length := by
      intro heq
      exact hns (Or.inl ⟨toString pgrm.instructions.length, heq⟩)
    obtain ⟨midP, new_locals, hbody, hlook⟩ :=
      compile_declaration_lookup pgrm name parameters body p' h hne
    rw [hlook]
    rfl

theorem C5_witness :
    mapLookup (⟨[], [.jump "function_done_0", .moveMinusSP 0 0, .dupPlusSP 0,
      .ret]⟩ : Program).syms "id" = none := by
  exact (C5_registered_once_after_body ⟨[], []⟩ (tokIdent "id") [tokIdent "x"]
    [.returnStmt (ident "x")] P_id_decl rfl
    (not_syntheticLabel_short _ (by decide)) (by decide) rfl).1
    ⟨[], [.jump "function_done_0", .moveMinusSP 0 0, .dupPlusSP 0, .ret]⟩ [("x", 0)] rfl

/-- C6 (counterexample): for `function id(x) return x; end` the
recorded symbol is `⟨1, 1, 1⟩`: its `nlocals` is 1 although the body
declares no locals — the count includes the parameter `x`, contrary to
"the declared-local count, not including parameters". -/
theorem C6_counterexample :
    compile ast_id = .ok P_id ∧
    mapLookup P_id.syms "id" = some ⟨1, 1, 1⟩ ∧
    stmts_locals [.returnStmt (ident "x")] = [] ∧
    (1 : Nat) ≠ 0 :=
  ⟨rfl, rfl, rfl, by decide⟩

/-- C6 (amended): the symbol recorded for a compiled function
declaration has arity equal to its parameter count, and `local_count`
equal to the number of **distinct parameter and declared-local names**
of the body — parameters included. -/
theorem C6_symbol_arity_and_nlocals (pgrm : Program) (name : Token) (parameters : List Token)
    (body : List Statement) (p' : Program)
    (h : compile_declaration pgrm name parameters body = .ok p')
    (hns : ¬ syntheticLabel name.value) :
    (mapLookup p'.syms name.value).map Symbol.narguments = some parameters.length ∧
    (mapLookup p'.syms name.value).map Symbol.nlocals =
      some ((parameters.map Token.value) ++ stmts_locals body).dedup.length := by
  have hne : name.value ≠ "function_done_" ++ toString pgrm.instructions.length := fun heq =>
    hns (Or.inl ⟨toString pgrm.instructions.length, heq⟩)
  obtain ⟨midP, new_locals, hbody, hlook⟩ :=
    compile_declaration_lookup pgrm name parameters body p' h hne
  have hc := compile_declaration_nlocals_count pgrm parameters body midP new_locals hbody
  rw [hlook]
  exact ⟨rfl, by simp [hc]⟩

theorem C6_witness :
    (mapLookup P_id_decl.syms "id").map Symbol.narguments = some 1 ∧
    (mapLookup P_id_decl.syms "id").map Symbol.nlocals = some 1 := by
  have h := C6_symbol_arity_and_nlocals ⟨[], []⟩ (tokIdent "id") [tokIdent "x"]
    [.returnStmt (ident "x")] P_id_decl rfl (not_syntheticLabel_short _ (by decide))
  exact ⟨h.1, h.2.trans (by decide)⟩

/-- C8 (counterexample): compiling `x;` with `x` never declared fails
and produces no Program, but the failure is the bare map-indexing
panic: it reports no source location (`compile_literal` ignores the
source text entirely). -/
theorem C8_counterexample :
    compile ast_undeclared = .error .keyNotFound ∧
    CompileErr.reportedLoc .keyNotFound = none :=
  ⟨rfl, rfl⟩

/-- C8 (amended): for every AST containing an identifier reference that
was never declared as a local or parameter in its enclosing scope,
compilation fails fatally before producing any Program; the
undeclared-identifier failure itself, however, is the generic
key-not-found panic and carries no source location. -/
theorem C8_undeclared_identifier_fails (ast : AST)
    (hbad : has_undeclared_stmts (stmts_locals ast) ast = true) :
    isErr (compile ast) = true := by
  have h := compile_statements_undeclared ⟨[], []⟩ [] (stmts_locals ast) ast
    (by intro k hk; simp [mapLookup] at hk) (fun k hk => hk) hbad
  cases hc : compile_statements ⟨[], []⟩ [] ast with
  | error err => simp [compile, bind, Except.bind, hc, isErr]
  | ok res =>
    rw [hc] at h
    simp [isErr] at h

theorem C8_witness :
    has_undeclared_stmts (stmts_locals ast_undeclared) ast_undeclared = true ∧
    isErr (compile ast_undeclared) = true :=
  ⟨by decide, C8_undeclared_identifier_fails ast_undeclared (by decide)⟩

/-- C9 (counterexample): in the top-level scope of
`local x = 1; local x = 2; local y = 3;` the redeclaration of `x`
moves `x` to slot 1 without growing the table, and `y` is then also
assigned slot 1: two distinct names share one slot (both compile to
`MovePlusSP 1`), so slot assignment is not unique for every input
AST. -/
theorem C9_counterexample :
    compile_statements ⟨[], []⟩ [] ast_redecl =
      .ok (⟨[], [.store 1, .movePlusSP 0, .store 2, .movePlusSP 1,
                 .store 3, .movePlusSP 1]⟩,
           [("x", 1), ("y", 1)]) ∧
    mapLookup ([("x", 1), ("y", 1)] : Locals) "x" = some 1 ∧
    mapLookup ([("x", 1), ("y", 1)] : Locals) "y" = some 1 ∧
    "x" ≠ "y" :=
  ⟨rfl, rfl, rfl, by decide⟩

/-- C9 (amended): provided no name is declared twice in the same scope
(the scope's declared locals are pairwise distinct and fresh with
respect to its table), compilation assigns every name a slot index
distinct from that of every other name in the scope, and entries
already in the table survive unchanged to the end of the scope. -/
theorem C9_slots_distinct_when_fresh (pgrm : Program) (locals : Locals)
    (sts : List Statement) (p' : Program) (l' : Locals)
    (h : compile_statements pgrm locals sts = .ok (p', l'))
    (hok : SlotsOK locals)
    (hnodup : (stmts_locals sts).Nodup)
    (hfresh : ∀ k ∈ stmts_locals sts, mapLookup locals k = none) :
    (∀ k₁ k₂ v₁ v₂, mapLookup l' k₁ = some v₁ → mapLookup l' k₂ = some v₂ →
        k₁ ≠ k₂ → v₁ ≠ v₂) ∧
    (∀ p ∈ locals, p ∈ l') := by
  obtain ⟨hslots, hstable⟩ := compile_statements_slots pgrm locals sts p' l' h hok hnodup hfresh
  refine ⟨?_, hstable⟩
  intro k₁ k₂ v₁ v₂ h₁ h₂ hk hv
  subst hv
  have m₁ := mapLookup_mem l' k₁ v₁ h₁
  have m₂ := mapLookup_mem l' k₂ v₁ h₂
  have heq := List.inj_on_of_nodup_map hslots.2.1 m₁ m₂ rfl
  exact hk (congrArg Prod.fst heq)

theorem C9_witness :
    mapLookup ([("x", 0), ("y", 1)] : Locals) "x" ≠
      mapLookup ([("x", 0), ("y", 1)] : Locals) "y" := by
  intro hcontra
  have h01 : (0 : Int) = 1 := by
    have hx : mapLookup ([("x", 0), ("y", 1)] : Locals) "x" = some 0 := rfl
    have hy : mapLookup ([("x", 0), ("y", 1)] : Locals) "y" = some 1 := rfl
    rw [hx, hy] at hcontra
    exact Option.some.inj hcontra
  exact (C9_slots_distinct_when_fresh ⟨[], []⟩ []
      [.localStmt (tokIdent "x") (num "1"), .localStmt (tokIdent "y") (num "2")]
      ⟨[], [.store 1, .movePlusSP 0, .store 2, .movePlusSP 1]⟩ [("x", 0), ("y", 1)]
      rfl (by simp [SlotsOK]) (by decide) (fun k _ => rfl)).1
    "x" "y" 0 1 rfl rfl (by decide) h01

/-- C10 (counterexample): `function f(x, x) return x; end f(1, 2);`
has two parameters but only one distinct name, so the `Call`
zero-fills a single slot (`nlocals = 1`) while the second
`BindArgument` (`MoveMinusSP 1 0`) writes to `fp + 1`, one past the
end of the stack: the run aborts with an out-of-bounds access instead
of staying within bounds. -/
theorem C10_counterexample :
    compile ast_dup_param = .ok P_dup_param ∧
    mapLookup P_dup_param.syms "f" = some ⟨1, 2, 1⟩ ∧
    P_dup_param.instructions.get? 2 = some (.moveMinusSP 1 0) ∧
    run P_dup_param 20 initial_state = .aborted .indexOutOfBounds :=
  ⟨rfl, rfl, rfl, rfl⟩

/-- C10 (amended): the zero-filled slot count recorded for a function
equals the number of distinct parameter and declared-local names of
its body; and provided those names are pairwise distinct, every slot
index in the body's final local-name table lies inside the zero-filled
frame, so immediately after the `Call` establishes the frame every
address `fp + slot_index` is strictly within the bounds of the value
stack. -/
theorem C10_frame_covers_slots_when_fresh (pgrm : Program) (name : Token)
    (parameters : List Token) (body : List Statement) (p' : Program)
    (midP : Program) (new_locals : Locals)
    (hdecl : compile_declaration pgrm name parameters body = .ok p')
    (hbody : compile_statements
        (bind_parameters
          (emit pgrm (.jump ("function_done_" ++ toString pgrm.instructions.length)))
          [] parameters.length 0 parameters).1
        (bind_parameters
          (emit pgrm (.jump ("function_done_" ++ toString pgrm.instructions.length)))
          [] parameters.length 0 parameters).2 body = .ok (midP, new_locals))
    (hns : ¬ syntheticLabel name.value)
    (hnodup : ((parameters.map Token.value) ++ stmts_locals body).Nodup) :
    (mapLookup p'.syms name.value).map Symbol.nlocals =
      some ((parameters.map Token.value) ++ stmts_locals body).dedup.length ∧
    (∀ p ∈ new_locals, 0 ≤ p.2 ∧ p.2 < (new_locals.length : Int)) ∧
    (∀ (exe : Program) (s : VMState) (k : Nat) (sym : Symbol),
        0 ≤ s.pc →
        exe.instructions.get? s.pc.toNat = some (.call name.value k) →
        name.value ≠ "print" →
        mapLookup exe.syms name.value = some sym →
        sym.nlocals = new_locals.length →
        step exe s = .ok ⟨sym.location, ((s.data.length + 3 : Nat) : Int),
          s.data ++ [s.sp, s.pc + 1, (sym.narguments : Int)] ++
            List.replicate sym.nlocals 0, s.output⟩ ∧
        ∀ p ∈ new_locals,
          0 ≤ ((s.data.length + 3 : Nat) : Int) + p.2 ∧
          ((s.data.length + 3 : Nat) : Int) + p.2 <
            ((s.data ++ [s.sp, s.pc + 1, (sym.narguments : Int)] ++
              List.replicate sym.nlocals 0).length : Int)) := by
  have hnd := List.nodup_append.mp hnodup
  have hslots : SlotsOK new_locals := by
    have hseed : SlotsOK (bind_parameters
        (emit pgrm (.jump ("function_done_" ++ toString pgrm.instructions.length)))
        [] parameters.length 0 parameters).2 :=
      bind_parameters_slots parameters _ [] parameters.length 0 rfl
        (by simp [SlotsOK]) (fun p _ => rfl) hnd.1
    refine (compile_statements_slots _ _ body midP new_locals hbody hseed hnd.2.1 ?_).1
    intro k hk
    rw [← Option.not_isSome_iff_eq_none,
      bind_parameters_locals_keys parameters _ [] parameters.length 0 k]
    push_neg
    refine ⟨by simp [mapLookup], ?_⟩
    intro hmem
    exact hnd.2.2 hmem hk
  refine ⟨?_, hslots.2.2, ?_⟩
  · have hne : name.value ≠ "function_done_" ++ toString pgrm.instructions.length := fun heq =>
      hns (Or.inl ⟨toString pgrm.instructions.length, heq⟩)
    obtain ⟨midP', new_locals', hbody', hlook⟩ :=
      compile_declaration_lookup pgrm name parameters body p' hdecl hne
    have hpair : midP' = midP ∧ new_locals' = new_locals := by
      have := (hbody'.symm.trans hbody)
      simp only [Except.ok.injEq, Prod.mk.injEq] at this
      exact this
    have hc := compile_declaration_nlocals_count pgrm parameters body midP' new_locals' hbody'
    rw [hlook]
    simp [hc]
  · intro exe s k sym hpc hin hnp hsym hnl
    refine ⟨(step_eq_exec exe s _ hpc hin).trans (exec_call_user exe s name.value k sym hnp hsym),
      ?_⟩
    intro p hp
    have hb := hslots.2.2 p hp
    constructor
    · have : (0 : Int) ≤ ((s.data.length + 3 : Nat) : Int) := by positivity
      omega
    · have hlen : ((s.data ++ [s.sp, s.pc + 1, (sym.narguments : Int)] ++
          List.replicate sym.nlocals 0).length : Int) =
          ((s.data.length + 3 : Nat) : Int) + (sym.nlocals : Int) := by
        simp only [List.length_append, List.length_cons, List.length_nil,
          List.length_replicate]
        push_cast
        ring
      rw [hlen, hnl]
      have := hb.2
      omega

theorem C10_witness :
    step P_g ⟨7, 0, [5], []⟩ = .ok ⟨1, 4, [5, 0, 8, 1, 0, 0], []⟩ ∧
    (0 ≤ (4 : Int) + 1 ∧ (4 : Int) + 1 < 6) := by
  have h := C10_frame_covers_slots_when_fresh ⟨[], []⟩ (tokIdent "g") [tokIdent "x"]
    [.localStmt (tokIdent "y") (num "2"), .returnStmt (ident "x")] P_g_decl
    ⟨[], [.jump "function_done_0", .moveMinusSP 0 0, .store 2, .movePlusSP 1,
      .dupPlusSP 0, .ret]⟩ [("x", 0), ("y", 1)]
    rfl rfl (not_syntheticLabel_short _ (by decide)) (by decide)
  have hc := h.2.2 P_g ⟨7, 0, [5], []⟩ 1 ⟨1, 1, 2⟩ (by decide) (by decide) (by decide)
    (by decide) (by decide)
  exact ⟨hc.1, hc.2 ("y", 1) (by decide)⟩

end Lust
